import Mathlib

/-!
Formal model of the concurrency-correctness layer of the
`backend/product-management` service: the TTL-based lease manager
(`shared/lockManager.js`), the per-origin token-bucket rate limiter
(`shared/rateLimiter.js`), the vendor-price reconciliation pipeline
(`services/vendorPricesProcessor.js`) and the processing-claim transaction
of `services/globalProductProcessor.js`.

The JavaScript source is embedded shallowly: Firestore documents become
Lean structures, collections become association lists keyed by document id,
`FieldValue.serverTimestamp()` becomes the integer `now` passed explicitly,
and the external enhancement calls of Phase 1 become an oracle supplying
their results.  A single run is modelled sequentially: the state read
inside the merge transaction is the state the run started from (Firestore's
optimistic retry makes the committed transaction see a consistent
snapshot).  Asynchronous `Promise.any` races over identifier variants are
modelled by first-in-attempt-order selection.
-/

namespace ProductManagement

/-! ## Association-list collections

Firestore (sub)collections are modelled as association lists from document
id to document payload.  `getDoc` is a point read, `setDoc` is an upsert
(the behaviour of `transaction.set`, with the merged field set spelled out
at each call site). -/

def getDoc {α : Type} (k : String) : List (String × α) → Option α
  | [] => none
  | (k', v) :: t => if k = k' then some v else getDoc k t

def setDoc {α : Type} (k : String) (v : α) : List (String × α) → List (String × α)
  | [] => [(k, v)]
  | (k', v') :: t => if k = k' then (k, v) :: t else (k', v') :: setDoc k v t

/-! ## Lease manager (`shared/lockManager.js`)

The lock document `globalProducts/{id}/locks/{lockType}`.  `lockedAt` is a
timestamp in milliseconds; a missing `lockedAt` field (falsy in the JS
`lock && lock.lockedAt` guard) is modelled as `none`. -/

structure LockDoc where
  lockedBy : String
  lockedAt : Option Int
  extensionCount : Nat
deriving Repr, DecidableEq

def LOCK_TTL_MS : Int := 1200000

inductive AcquireResult where
  | acquired
  | busy (lockedBy : String) (remainingMs : Int)
  | notFound
deriving Repr, DecidableEq

/-- `tryAcquireLock` from `shared/lockManager.js`: transaction over the
parent-existence check, the lock-age check against `LOCK_TTL_MS`, and the
unconditional `transaction.set` of a fresh lease when the age check did not
return `already_locked`. -/
def tryAcquireLock (parentExists : Bool) (lock : Option LockDoc) (now : Int)
    (requestId : String) : AcquireResult × Option LockDoc :=
  if !parentExists then (.notFound, lock)
  else
    match lock with
    | some l =>
      match l.lockedAt with
      | some t =>
        let lockAge := now - t
        if lockAge < LOCK_TTL_MS then
          (.busy l.lockedBy (LOCK_TTL_MS - lockAge), some l)
        else
          (.acquired, some ⟨requestId, some now, 0⟩)
      | none => (.acquired, some ⟨requestId, some now, 0⟩)
    | none => (.acquired, some ⟨requestId, some now, 0⟩)

/-- `releaseLock` from `shared/lockManager.js`: deletes the lock document
only when it is held by `requestId`. -/
def releaseLock (lock : Option LockDoc) (requestId : String) : Option LockDoc :=
  match lock with
  | none => none
  | some l => if l.lockedBy = requestId then none else some l

/-- `extendLock` from `shared/lockManager.js`: heartbeat that refreshes
`lockedAt` and bumps `extensionCount`, but only for the current holder. -/
def extendLock (lock : Option LockDoc) (now : Int) (requestId : String) : Option LockDoc :=
  match lock with
  | none => none
  | some l =>
    if l.lockedBy = requestId then
      some ⟨l.lockedBy, some now, l.extensionCount + 1⟩
    else
      some l

/-! ## Processing-claim transaction (`services/globalProductProcessor.js`)

The claim transaction of the enhancement callback path: `processed` check,
then the persisted `_processingClaimed` / `_processingClaimedAt` check
against a 5-minute TTL, then the claim write. -/

structure GPClaimState where
  docExists : Bool
  processed : Bool
  processingClaimed : Option String
  processingClaimedAt : Option Int
deriving Repr, DecidableEq

inductive ClaimResult where
  | notFound
  | alreadyProcessed
  | claimedByOther (holder : String)
  | won
deriving Repr, DecidableEq

def CLAIM_TTL_MS : Int := 300000

/-- The claim transaction from `processGlobalProduct` (enhancement-callback
path): not-found check, `processed` check, then the stale-claim check with
`claimTime = _processingClaimedAt?.toMillis?.() || 0`, then the claim
update. -/
def claimTransaction (st : GPClaimState) (now : Int) (requestId : String) :
    ClaimResult × GPClaimState :=
  if !st.docExists then (.notFound, st)
  else if st.processed then (.alreadyProcessed, st)
  else
    match st.processingClaimed with
    | some holder =>
      let claimTime := st.processingClaimedAt.getD 0
      if now - claimTime < CLAIM_TTL_MS then (.claimedByOther holder, st)
      else
        (.won, { st with processingClaimed := some requestId,
                         processingClaimedAt := some now })
    | none =>
      (.won, { st with processingClaimed := some requestId,
                       processingClaimedAt := some now })

/-! ## Rate limiter (`shared/rateLimiter.js`)

Token buckets with rational token counts; `DOMAIN_LIMITS` is the tiered
configuration table, matched by hostname suffix with a default tier for
unmatched origins. -/

structure RateLimits where
  rate : Nat
  burst : Nat
deriving Repr, DecidableEq

def DOMAIN_LIMITS : List (String × RateLimits) :=
  [("algolia.net", ⟨50, 80⟩), ("adobe.io", ⟨40, 60⟩), ("instaleap.io", ⟨40, 60⟩),
   ("searchserverapi1.com", ⟨30, 50⟩), ("fastsimon.com", ⟨30, 50⟩),
   ("super99.com", ⟨25, 40⟩), ("smrey.com", ⟨25, 40⟩), ("elmachetazo.com", ⟨20, 35⟩),
   ("superxtra.com", ⟨20, 35⟩), ("arrocha.com", ⟨20, 35⟩),
   ("ribasmith.com", ⟨15, 25⟩), ("novey.com.pa", ⟨15, 25⟩),
   ("doitcenter.com.pa", ⟨15, 25⟩), ("panafoto.com", ⟨15, 25⟩),
   ("felipemotta.store", ⟨15, 25⟩), ("conwayclick.com", ⟨15, 25⟩),
   ("stevens.com.pa", ⟨15, 25⟩), ("supercarnes.com", ⟨15, 25⟩),
   ("superbaru.com", ⟨12, 20⟩), ("felix.com.pa", ⟨12, 20⟩), ("titan.com.pa", ⟨12, 20⟩),
   ("americanpetspanama.com", ⟨10, 18⟩), ("melopetandgarden.com", ⟨10, 18⟩),
   ("blackdogpanama.com", ⟨8, 15⟩)]

def DEFAULT_RATE : Nat := 10
def DEFAULT_BURST : Nat := 18

/-- `getLimits`: first suffix match in table order, else the default tier. -/
def getLimits (domain : String) : RateLimits :=
  match DOMAIN_LIMITS.find? (fun p => domain.endsWith p.1) with
  | some p => p.2
  | none => ⟨DEFAULT_RATE, DEFAULT_BURST⟩

structure Bucket where
  tokens : ℚ
  lastRefill : Int
deriving Repr, DecidableEq

/-- A bucket is created full (`tokens: burst`) in `getBucket`. -/
def initBucket (limits : RateLimits) (now : Int) : Bucket :=
  ⟨(limits.burst : ℚ), now⟩

/-- `refillTokens`: adds `elapsed/1000 * rate` tokens, capped at `burst`. -/
def refillTokens (limits : RateLimits) (b : Bucket) (now : Int) : Bucket :=
  let elapsed : ℚ := ((now - b.lastRefill : Int) : ℚ)
  let tokensToAdd := elapsed / 1000 * (limits.rate : ℚ)
  ⟨min ((limits.burst : ℚ)) (b.tokens + tokensToAdd), now⟩

/-- The bucket-mutating events of `rateLimiter.js`: a timer refill, an
`acquireToken` call (refill, then consume a token when one is available,
otherwise enqueue — the queue itself does not change the token count), a
waiter release in `releaseWaiters`, and a `report429` penalty. -/
inductive BucketOp where
  | refill (now : Int)
  | tryAcquire (now : Int)
  | drainWaiter
  | penalize
deriving Repr, DecidableEq

def stepBucket (limits : RateLimits) (b : Bucket) : BucketOp → Bucket
  | .refill now => refillTokens limits b now
  | .tryAcquire now =>
    let b' := refillTokens limits b now
    if 1 ≤ b'.tokens then ⟨b'.tokens - 1, b'.lastRefill⟩ else b'
  | .drainWaiter => if 1 ≤ b.tokens then ⟨b.tokens - 1, b.lastRefill⟩ else b
  | .penalize => ⟨min b.tokens (-5), b.lastRefill⟩

def runBucket (limits : RateLimits) (b : Bucket) (ops : List BucketOp) : Bucket :=
  ops.foldl (stepBucket limits) b

/-- Number of `acquireToken` calls served immediately (no waiting) out of
`n` back-to-back calls at a single instant, starting from `t` available
tokens: each immediate grant requires at least one token and consumes one;
same-instant refills add `0 * rate` tokens. -/
def immediateGrants : ℚ → Nat → Nat
  | _, 0 => 0
  | t, n + 1 => if 1 ≤ t then immediateGrants (t - 1) n + 1 else immediateGrants t n

/-! ## Vendor-price reconciliation (`services/vendorPricesProcessor.js`)

Documents: the `globalProducts/{id}` master record, its `vendorBrands`
(VendorLink) and `vendorPrices` (PriceObservation) subcollections and its
lock document.  `FieldValue.serverTimestamp()` is the run's `now`;
enhancement results from `productEnhancer` are supplied by a
`FetchOracle`.  `generateDocIdSync(brand_dateKey)` is a deterministic hash
of the key string; it is modelled by the key string itself. -/

structure Enhanced where
  price : Option Int
  url : Option String
  skuCode : Option String
deriving Repr, DecidableEq

structure Hit where
  brand : String
  price : Int
  url : Option String
  skuCode : Option String
deriving Repr, DecidableEq

structure VBDoc where
  active : Bool
  lastFetchDate : Option Int
  lastPrice : Option Int
  url : Option String
  skuCode : Option String
deriving Repr, DecidableEq

structure VPDoc where
  price : Int
  fetchDate : Int
deriving Repr, DecidableEq

structure BestPrice where
  brand : String
  price : Int
  date : Int
deriving Repr, DecidableEq

structure GPState where
  masterExists : Bool
  eanCodeVariations : List String
  bestPrice : Option BestPrice
  activeVendorBrands : Option Nat
  vendorBrands : List (String × VBDoc)
  vendorPrices : List (String × VPDoc)
  lock : Option LockDoc
deriving Repr, DecidableEq

/-- External enhancement results: `fetchExisting brand` is the outcome of
`getEnhancedData(brand, skuCode, url)` for a vendor with an active link,
`fetchVariant brand code` the outcome of `getEnhancedData(brand, code,
null, globalName)` for one identifier variant; `none` covers errors,
timeouts and null results. -/
structure FetchOracle where
  fetchExisting : String → Option Enhanced
  fetchVariant : String → String → Option Enhanced

def ALL_BRANDS : List String :=
  ["super99", "elmachetazo", "ribasmith", "superxtra", "supermercadorey",
   "superbaru", "supercarnes"]

/-- JS truthiness of the `enhanced?.url` guard: present and non-empty. -/
def urlTruthy : Option String → Bool
  | some u => u != ""
  | none => false

/-- Acceptance test of the existing-vendorBrand path (`if (price && price
!== 0)`): a present, non-zero price — the URL is not examined. -/
def existingHitCheck (brand : String) (r : Option Enhanced) : Option Hit :=
  match r with
  | some e =>
    match e.price with
    | some p => if p ≠ 0 then some ⟨brand, p, e.url, e.skuCode⟩ else none
    | none => none
  | none => none

/-- Acceptance test of the per-variant path (`if (price && price !== 0 &&
enhanced?.url)`): a present, non-zero price and a truthy URL. -/
def variantHitCheck (brand : String) (r : Option Enhanced) : Option Hit :=
  match r with
  | some e =>
    match e.price with
    | some p =>
      if p ≠ 0 ∧ urlTruthy e.url then some ⟨brand, p, e.url, e.skuCode⟩ else none
    | none => none
  | none => none

/-- The initial `where("active", "==", true)` query over `vendorBrands`. -/
def activeBrandDocs (st : GPState) : List (String × VBDoc) :=
  st.vendorBrands.filter (fun p => p.2.active)

def existingBrandsToEnhance (st : GPState) : List String :=
  (activeBrandDocs st).map Prod.fst

def existingHits (st : GPState) (o : FetchOracle) : List Hit :=
  (activeBrandDocs st).filterMap (fun p => existingHitCheck p.1 (o.fetchExisting p.1))

def brandsToSearch (st : GPState) (o : FetchOracle) : List String :=
  ALL_BRANDS.filter (fun b => !(((existingHits st o).map Hit.brand).contains b))

/-- `Promise.any` over the per-variant attempts, modelled as the first
variant in attempt order whose lookup satisfies `variantHitCheck`. -/
def firstVariantHit (o : FetchOracle) (brand : String) (codes : List String) : Option Hit :=
  codes.findSome? (fun c => variantHitCheck brand (o.fetchVariant brand c))

def missingHits (st : GPState) (o : FetchOracle) : List Hit :=
  (brandsToSearch st o).filterMap (fun b =>
    if st.eanCodeVariations.isEmpty then none
    else firstVariantHit o b st.eanCodeVariations)

def allHits (st : GPState) (o : FetchOracle) : List Hit :=
  existingHits st o ++ missingHits st o

/-- `new Map(allHits.map(h => [h.brand, h])).get(b)`: last entry wins. -/
def allHitsMapGet (hits : List Hit) (b : String) : Option Hit :=
  hits.foldl (fun acc h => if h.brand = b then some h else acc) none

/-- One step of the `newLowest` scan: replace the best hit only on a
strictly lower price, so the first-encountered hit wins ties. -/
def selectStep (acc : Option Hit) (h : Hit) : Option Hit :=
  match acc with
  | none => some h
  | some best => if h.price < best.price then some h else some best

def selectLowest (hits : List Hit) : Option Hit :=
  hits.foldl selectStep none

/-- `cutoffDate = now - 7 days`. -/
def cutoffDate (now : Int) : Int := now - 7 * 24 * 60 * 60 * 1000

/-- Document id of the PriceObservation for `(brand, dateKey)`. -/
def vpDocId (brand dateKey : String) : String := brand ++ "_" ++ dateKey

/-- `allRelevantBrands`: the JS `Set` of existing brands to enhance plus
missing-hit brands (deduplicated). -/
def relevantBrands (st : GPState) (o : FetchOracle) : List String :=
  (existingBrandsToEnhance st ++ (missingHits st o).map Hit.brand).dedup

/-- Body of the first transaction loop (`Process existing vendorBrands`)
for one brand: `docInfo` is the fresh read captured before any write, so
it is taken from `pre`; each relevant brand is visited once, so the merge
base of the hit update is `pre`'s document. -/
def loop1Step (pre : GPState) (hits : List Hit) (now : Int) (dateKey : String)
    (st : GPState) (b : String) : GPState :=
  match getDoc b pre.vendorBrands with
  | none => st
  | some d =>
    match allHitsMapGet hits b with
    | some h =>
      { st with
        vendorBrands := setDoc b
          { d with lastFetchDate := some now, lastPrice := some h.price,
                   url := h.url, active := true } st.vendorBrands,
        vendorPrices := setDoc (vpDocId b dateKey) ⟨h.price, now⟩ st.vendorPrices }
    | none =>
      if d.active then
        match d.lastFetchDate with
        | some t =>
          if t < cutoffDate now then
            { st with vendorBrands := setDoc b { d with active := false } st.vendorBrands }
          else st
        | none => st
      else st

/-- Body of the second transaction loop (`Create new vendorBrands from
missing hits`) for one hit.  The create branch and the exists branch set
the same five modelled fields, so both write the same document. -/
def loop2Step (pre : GPState) (now : Int) (dateKey : String)
    (st : GPState) (h : Hit) : GPState :=
  let newDoc : VBDoc := ⟨true, some now, some h.price, h.url, h.skuCode⟩
  match getDoc h.brand pre.vendorBrands with
  | none =>
    { st with vendorBrands := setDoc h.brand newDoc st.vendorBrands,
              vendorPrices := setDoc (vpDocId h.brand dateKey) ⟨h.price, now⟩ st.vendorPrices }
  | some _ =>
    { st with vendorBrands := setDoc h.brand newDoc st.vendorBrands,
              vendorPrices := setDoc (vpDocId h.brand dateKey) ⟨h.price, now⟩ st.vendorPrices }

/-- One step of the `Calculate final active count` loop: `hit ||
(wasActive && !willBeDeactivated)`, computed from the fresh (pre-write)
documents. -/
def countPredicate (fresh : Option VBDoc) (hit : Option Hit) (now : Int) : Bool :=
  let wasActive := match fresh with
    | some d => d.active
    | none => false
  let fetchStale := match fresh with
    | some d =>
      match d.lastFetchDate with
      | some t => decide (t < cutoffDate now)
      | none => false
    | none => false
  let willBeDeactivated := wasActive && hit.isNone && fetchStale
  hit.isSome || (wasActive && !willBeDeactivated)

def finalActiveCount (pre : GPState) (hits : List Hit) (relevant : List String)
    (now : Int) : Nat :=
  (relevant.filter (fun b =>
    countPredicate (getDoc b pre.vendorBrands) (allHitsMapGet hits b) now)).length

/-- The merge transaction of `processVendorPrices`: both write loops over
the fresh documents, then the master update with `activeVendorBrands` and,
when a lowest hit exists, `bestPrice`. -/
def mergeTxn (pre : GPState) (hits missing : List Hit) (relevant : List String)
    (now : Int) (dateKey : String) : GPState :=
  let st1 := relevant.foldl (loop1Step pre hits now dateKey) pre
  let st2 := missing.foldl (loop2Step pre now dateKey) st1
  { st2 with
    activeVendorBrands := some (finalActiveCount pre hits relevant now),
    bestPrice :=
      match selectLowest hits with
      | some h => some ⟨h.brand, h.price, now⟩
      | none => st2.bestPrice }

/-- The transaction body including its only throw site (`Global product
deleted during processing`); a thrown error is caught by the outer
`catch`. -/
def mergeTxnE (pre : GPState) (hits missing : List Hit) (relevant : List String)
    (now : Int) (dateKey : String) : Except String GPState :=
  if !pre.masterExists then .error "Global product deleted during processing"
  else .ok (mergeTxn pre hits missing relevant now dateKey)

structure VPOutcome where
  status : Nat
  shouldNack : Bool
  message : String
deriving Repr, DecidableEq

/-- `processVendorPrices`, sequentially: lock acquisition with its three
failure shapes, the post-lock master read, Phase 1 via the oracle, the
merge transaction, the `catch` that converts a transaction throw into a
500 result, and the `finally` that releases the lock on every path where
it was acquired.  The returned `Bool` records whether `releaseLock` ran. -/
def processVendorPrices (st : GPState) (o : FetchOracle) (now : Int)
    (requestId dateKey : String) : VPOutcome × GPState × Bool :=
  match tryAcquireLock st.masterExists st.lock now requestId with
  | (.busy _ _, lock') =>
    (⟨429, true, "Already locked by another worker"⟩, { st with lock := lock' }, false)
  | (.notFound, lock') =>
    (⟨404, false, "Global product not found"⟩, { st with lock := lock' }, false)
  | (.acquired, lock') =>
    let st1 := { st with lock := lock' }
    if !st1.masterExists then
      (⟨404, false, "Global product not found"⟩,
       { st1 with lock := releaseLock st1.lock requestId }, true)
    else
      match mergeTxnE st1 (allHits st1 o) (missingHits st1 o) (relevantBrands st1 o)
          now dateKey with
      | .error _ =>
        (⟨500, false, "Internal Server Error"⟩,
         { st1 with lock := releaseLock st1.lock requestId }, true)
      | .ok st2 =>
        (⟨200, false, "Processing succeeded"⟩,
         { st2 with lock := releaseLock st2.lock requestId }, true)

/-- The single write performed (if any) by one `loop1Step` iteration on
the `vendorBrands` document of its brand. -/
def loop1Write (pre : GPState) (hits : List Hit) (now : Int) (b : String) : Option VBDoc :=
  match getDoc b pre.vendorBrands with
  | none => none
  | some d =>
    match allHitsMapGet hits b with
    | some h =>
      some { d with lastFetchDate := some now, lastPrice := some h.price,
                    url := h.url, active := true }
    | none =>
      if d.active then
        match d.lastFetchDate with
        | some t => if t < cutoffDate now then some { d with active := false } else none
        | none => none
      else none

/-- The price written (if any) by one `loop1Step` iteration to the
PriceObservation of its brand. -/
def loop1VP (pre : GPState) (hits : List Hit) (b : String) : Option Int :=
  match getDoc b pre.vendorBrands with
  | none => none
  | some _ =>
    match allHitsMapGet hits b with
    | some h => some h.price
    | none => none

/-- Both write loops of the merge transaction, as run inside `mergeTxn`
before the master-document update. -/
def runLoops (pre : GPState) (hits missing : List Hit) (relevant : List String)
    (now : Int) (dateKey : String) : GPState :=
  missing.foldl (loop2Step pre now dateKey)
    (relevant.foldl (loop1Step pre hits now dateKey) pre)

/-- Stored active flag of the VendorLink for `b`, `false` when absent. -/
def activeAt (st : GPState) (b : String) : Bool :=
  ((getDoc b st.vendorBrands).map VBDoc.active).getD false

/-- The scalar (non-collection) fields of the aggregate record and its
lock, used to state frame lemmas about the transaction loops. -/
def scalarFields (st : GPState) :
    Bool × List String × Option BestPrice × Option Nat × Option LockDoc :=
  (st.masterExists, st.eanCodeVariations, st.bestPrice, st.activeVendorBrands, st.lock)

/-! ## Association-list lemmas -/

theorem getDoc_setDoc_self {α : Type} (k : String) (v : α) (l : List (String × α)) :
    getDoc k (setDoc k v l) = some v := by
  induction l with
  | nil => simp [getDoc, setDoc]
  | cons p t ih =>
    obtain ⟨k', v'⟩ := p
    by_cases h : k = k'
    · simp [getDoc, setDoc, h]
    · simp [getDoc, setDoc, h, ih]

theorem getDoc_setDoc_ne {α : Type} {k k' : String} (v : α) (l : List (String × α))
    (h : k ≠ k') : getDoc k' (setDoc k v l) = getDoc k' l := by
  induction l with
  | nil => simp [getDoc, setDoc, h, Ne.symm h]
  | cons p t ih =>
    obtain ⟨k₀, v₀⟩ := p
    by_cases hk : k = k₀
    · subst hk
      simp [getDoc, setDoc, Ne.symm h]
    · by_cases hk' : k' = k₀ <;> simp [getDoc, setDoc, hk, hk', ih]

theorem getDoc_eq_some_of_mem {α : Type} {l : List (String × α)} {k : String} {v : α}
    (hnd : (l.map Prod.fst).Nodup) (hm : (k, v) ∈ l) : getDoc k l = some v := by
  induction l with
  | nil => cases hm
  | cons p t ih =>
    obtain ⟨k₀, v₀⟩ := p
    simp only [List.map_cons, List.nodup_cons] at hnd
    rcases List.mem_cons.mp hm with h | h
    · cases h
      simp [getDoc]
    · have hk : k ≠ k₀ := by
        intro he
        exact hnd.1 (he ▸ (List.mem_map.mpr ⟨(k, v), h, rfl⟩))
      simp [getDoc, hk, ih hnd.2 h]

theorem mem_of_getDoc_eq_some {α : Type} {l : List (String × α)} {k : String} {v : α}
    (h : getDoc k l = some v) : (k, v) ∈ l := by
  induction l with
  | nil => simp [getDoc] at h
  | cons p t ih =>
    obtain ⟨k₀, v₀⟩ := p
    by_cases hk : k = k₀
    · simp [getDoc, hk] at h
      simp [hk, h]
    · simp [getDoc, hk] at h
      exact List.mem_cons_of_mem _ (ih h)

theorem keys_setDoc {α : Type} (k : String) (v : α) (l : List (String × α)) :
    (setDoc k v l).map Prod.fst = if k ∈ l.map Prod.fst then l.map Prod.fst
      else l.map Prod.fst ++ [k] := by
  induction l with
  | nil => simp [setDoc]
  | cons p t ih =>
    obtain ⟨k₀, v₀⟩ := p
    by_cases hk : k = k₀
    · simp [setDoc, hk]
    · simp only [setDoc, if_neg hk, List.map_cons, ih]
      by_cases hm : k ∈ t.map Prod.fst <;> simp [hm, hk]

theorem nodup_keys_setDoc {α : Type} {l : List (String × α)} (k : String) (v : α)
    (hnd : (l.map Prod.fst).Nodup) : ((setDoc k v l).map Prod.fst).Nodup := by
  rw [keys_setDoc]
  by_cases hm : k ∈ l.map Prod.fst
  · simpa [hm] using hnd
  · simpa [hm] using List.Nodup.append hnd (List.nodup_singleton k) (by simpa using hm)

/-! ## Lowest-hit selection lemmas -/

theorem selectStep_foldl_spec (l : List Hit) : ∀ a : Hit,
    ∃ b, l.foldl selectStep (some a) = some b ∧
      ∃ l1 l2, a :: l = l1 ++ b :: l2 ∧ (∀ x ∈ l1, b.price < x.price) ∧
        (∀ x ∈ l2, b.price ≤ x.price) := by
  induction l with
  | nil =>
    intro a
    exact ⟨a, rfl, [], [], rfl, by simp, by simp⟩
  | cons x t ih =>
    intro a
    by_cases hx : x.price < a.price
    · obtain ⟨b, hb, l1, l2, hdec, h1, h2⟩ := ih x
      refine ⟨b, by simpa [selectStep, hx] using hb, a :: l1, l2,
        by simpa using congrArg (List.cons a) hdec, ?_, h2⟩
      intro y hy
      rcases List.mem_cons.mp hy with rfl | hy'
      · cases l1 with
        | nil =>
          obtain ⟨h3, -⟩ := List.cons.inj (by simpa using hdec)
          exact h3 ▸ hx
        | cons z l1' =>
          obtain ⟨h3, -⟩ := List.cons.inj (by simpa using hdec)
          exact lt_trans (h1 z (by simp)) (h3 ▸ hx)
      · exact h1 y hy'
    · obtain ⟨b, hb, l1, l2, hdec, h1, h2⟩ := ih a
      refine ⟨b, by simpa [selectStep, hx] using hb, ?_⟩
      cases l1 with
      | nil =>
        obtain ⟨h3, h4⟩ := List.cons.inj (by simpa using hdec)
        subst h3
        refine ⟨[], x :: t, by simp, by simp, ?_⟩
        intro y hy
        rcases List.mem_cons.mp hy with rfl | hy'
        · exact le_of_not_lt hx
        · exact h2 y (h4 ▸ hy')
      | cons z l1' =>
        obtain ⟨h3, h4⟩ := List.cons.inj (by simpa using hdec)
        refine ⟨a :: x :: l1', l2, by simp [h4], ?_, h2⟩
        intro y hy
        have hza : b.price < a.price := by
          rw [h3]
          exact h1 z (by simp)
        rcases List.mem_cons.mp hy with rfl | hy'
        · exact hza
        · rcases List.mem_cons.mp hy' with rfl | hy''
          · exact lt_of_lt_of_le hza (le_of_not_lt hx)
          · exact h1 y (by simp [hy''])

theorem selectLowest_firstMin {hits : List Hit} {b : Hit} (h : selectLowest hits = some b) :
    ∃ l1 l2, hits = l1 ++ b :: l2 ∧ (∀ x ∈ l1, b.price < x.price) ∧
      (∀ x ∈ l2, b.price ≤ x.price) := by
  cases hits with
  | nil => simp [selectLowest] at h
  | cons a t =>
    obtain ⟨b', hb', l1, l2, hdec, h1, h2⟩ := selectStep_foldl_spec t a
    rw [selectLowest, List.foldl_cons] at h
    have hstep : selectStep none a = some a := rfl
    rw [hstep, hb'] at h
    cases h
    exact ⟨l1, l2, hdec, h1, h2⟩

theorem selectLowest_isSome {hits : List Hit} (h : hits ≠ []) :
    ∃ b, selectLowest hits = some b := by
  cases hits with
  | nil => exact absurd rfl h
  | cons a t =>
    obtain ⟨b', hb', -⟩ := selectStep_foldl_spec t a
    exact ⟨b', by rw [selectLowest, List.foldl_cons]; exact hb'⟩

/-! ## Transaction-loop normal forms -/

theorem loop1Step_eq (pre : GPState) (hits : List Hit) (now : Int) (dateKey : String)
    (st : GPState) (b : String) :
    loop1Step pre hits now dateKey st b =
      { st with
        vendorBrands :=
          match loop1Write pre hits now b with
          | some v => setDoc b v st.vendorBrands
          | none => st.vendorBrands,
        vendorPrices :=
          match loop1VP pre hits b with
          | some p => setDoc (vpDocId b dateKey) ⟨p, now⟩ st.vendorPrices
          | none => st.vendorPrices } := by
  unfold loop1Step loop1Write loop1VP
  cases getDoc b pre.vendorBrands with
  | none => rfl
  | some d =>
    cases allHitsMapGet hits b with
    | some h => rfl
    | none =>
      by_cases hd : d.active
      · simp only [hd]
        cases d.lastFetchDate with
        | none => rfl
        | some t =>
          by_cases ht : t < cutoffDate now
          · simp [ht]
          · simp [ht]
      · simp [hd]

theorem loop2Step_eq (pre : GPState) (now : Int) (dateKey : String)
    (st : GPState) (h : Hit) :
    loop2Step pre now dateKey st h =
      { st with
        vendorBrands :=
          setDoc h.brand ⟨true, some now, some h.price, h.url, h.skuCode⟩ st.vendorBrands,
        vendorPrices :=
          setDoc (vpDocId h.brand dateKey) ⟨h.price, now⟩ st.vendorPrices } := by
  unfold loop2Step
  cases getDoc h.brand pre.vendorBrands <;> rfl

theorem scalarFields_loop1_foldl (pre : GPState) (hits : List Hit) (now : Int)
    (dateKey : String) (l : List String) (st : GPState) :
    scalarFields (l.foldl (loop1Step pre hits now dateKey) st) = scalarFields st := by
  induction l generalizing st with
  | nil => rfl
  | cons b t ih =>
    rw [List.foldl_cons, ih, loop1Step_eq]
    rfl

theorem scalarFields_loop2_foldl (pre : GPState) (now : Int) (dateKey : String)
    (l : List Hit) (st : GPState) :
    scalarFields (l.foldl (loop2Step pre now dateKey) st) = scalarFields st := by
  induction l generalizing st with
  | nil => rfl
  | cons h t ih =>
    rw [List.foldl_cons, ih, loop2Step_eq]
    rfl

/-! ## Pointwise characterization of the transaction loops -/

theorem vpDocId_inj {b1 b2 : String} (dateKey : String)
    (h : vpDocId b1 dateKey = vpDocId b2 dateKey) : b1 = b2 := by
  unfold vpDocId at h
  have h1 : (b1.data ++ [('_' : Char)]) ++ dateKey.data
      = (b2.data ++ [('_' : Char)]) ++ dateKey.data := by
    have := congrArg String.data h
    simpa [String.data_append] using this
  have h2 := List.append_cancel_right h1
  have h3 := List.append_cancel_right h2
  cases b1
  cases b2
  exact congrArg String.mk h3

theorem getDoc_vendorBrands_loop1Step_ne (pre : GPState) (hits : List Hit) (now : Int)
    (dateKey : String) (st : GPState) {b b' : String} (hne : b' ≠ b) :
    getDoc b' (loop1Step pre hits now dateKey st b).vendorBrands
      = getDoc b' st.vendorBrands := by
  rw [loop1Step_eq]
  rcases hw : loop1Write pre hits now b with _ | v
  · rfl
  · exact getDoc_setDoc_ne v _ (Ne.symm hne)

theorem getDoc_vendorPrices_loop1Step_ne (pre : GPState) (hits : List Hit) (now : Int)
    (dateKey : String) (st : GPState) (b : String) {k : String}
    (hk : k ≠ vpDocId b dateKey) :
    getDoc k (loop1Step pre hits now dateKey st b).vendorPrices
      = getDoc k st.vendorPrices := by
  rw [loop1Step_eq]
  rcases hw : loop1VP pre hits b with _ | p
  · rfl
  · exact getDoc_setDoc_ne _ _ (Ne.symm hk)

theorem getDoc_vendorBrands_loop1_notMem (pre : GPState) (hits : List Hit) (now : Int)
    (dateKey : String) (l : List String) (st : GPState) {b : String} (hb : b ∉ l) :
    getDoc b ((l.foldl (loop1Step pre hits now dateKey) st).vendorBrands)
      = getDoc b st.vendorBrands := by
  induction l generalizing st with
  | nil => rfl
  | cons a t ih =>
    rw [List.foldl_cons]
    have hba : b ≠ a := fun he => hb (he ▸ List.mem_cons_self a t)
    rw [ih _ (fun h => hb (List.mem_cons_of_mem a h))]
    exact getDoc_vendorBrands_loop1Step_ne pre hits now dateKey st hba

theorem getDoc_vendorPrices_loop1_frame (pre : GPState) (hits : List Hit) (now : Int)
    (dateKey : String) (l : List String) (st : GPState) {k : String}
    (hk : ∀ a ∈ l, k ≠ vpDocId a dateKey) :
    getDoc k ((l.foldl (loop1Step pre hits now dateKey) st).vendorPrices)
      = getDoc k st.vendorPrices := by
  induction l generalizing st with
  | nil => rfl
  | cons a t ih =>
    rw [List.foldl_cons]
    rw [ih _ (fun a' ha' => hk a' (List.mem_cons_of_mem a ha'))]
    exact getDoc_vendorPrices_loop1Step_ne pre hits now dateKey st a
      (hk a (List.mem_cons_self a t))

theorem getDoc_vendorBrands_loop1_mem (pre : GPState) (hits : List Hit) (now : Int)
    (dateKey : String) (l : List String) (st : GPState) {b : String}
    (hnd : l.Nodup) (hb : b ∈ l) :
    getDoc b ((l.foldl (loop1Step pre hits now dateKey) st).vendorBrands)
      = match loop1Write pre hits now b with
        | some v => some v
        | none => getDoc b st.vendorBrands := by
  induction l generalizing st with
  | nil => cases hb
  | cons a t ih =>
    rw [List.foldl_cons]
    rcases List.mem_cons.mp hb with rfl | hbt
    · have hbt' : b ∉ t := (List.nodup_cons.mp hnd).1
      rw [getDoc_vendorBrands_loop1_notMem pre hits now dateKey t _ hbt']
      rw [loop1Step_eq]
      rcases hw : loop1Write pre hits now b with _ | v
      · rfl
      · exact getDoc_setDoc_self b v _
    · have hba : b ≠ a := by
        rintro rfl
        exact (List.nodup_cons.mp hnd).1 hbt
      rw [ih _ (List.nodup_cons.mp hnd).2 hbt]
      rcases hw : loop1Write pre hits now b with _ | v
      · exact getDoc_vendorBrands_loop1Step_ne pre hits now dateKey st hba
      · rfl

theorem getDoc_vendorPrices_loop1_mem (pre : GPState) (hits : List Hit) (now : Int)
    (dateKey : String) (l : List String) (st : GPState) {b : String}
    (hnd : l.Nodup) (hb : b ∈ l) :
    getDoc (vpDocId b dateKey) ((l.foldl (loop1Step pre hits now dateKey) st).vendorPrices)
      = match loop1VP pre hits b with
        | some p => some ⟨p, now⟩
        | none => getDoc (vpDocId b dateKey) st.vendorPrices := by
  induction l generalizing st with
  | nil => cases hb
  | cons a t ih =>
    rw [List.foldl_cons]
    rcases List.mem_cons.mp hb with rfl | hbt
    · have hbt' : b ∉ t := (List.nodup_cons.mp hnd).1
      rw [getDoc_vendorPrices_loop1_frame pre hits now dateKey t _
        (fun a' ha' hke => hbt' (by rw [vpDocId_inj dateKey hke]; exact ha'))]
      rw [loop1Step_eq]
      rcases hw : loop1VP pre hits b with _ | p
      · rfl
      · exact getDoc_setDoc_self _ _ _
    · have hba : b ≠ a := by
        rintro rfl
        exact (List.nodup_cons.mp hnd).1 hbt
      rw [ih _ (List.nodup_cons.mp hnd).2 hbt]
      rcases hw : loop1VP pre hits b with _ | p
      · exact getDoc_vendorPrices_loop1Step_ne pre hits now dateKey st a
          (fun hke => hba (vpDocId_inj dateKey hke))
      · rfl

theorem getDoc_vendorBrands_loop2_frame (pre : GPState) (now : Int) (dateKey : String)
    (l : List Hit) (st : GPState) {b : String} (hb : ∀ h ∈ l, Hit.brand h ≠ b) :
    getDoc b ((l.foldl (loop2Step pre now dateKey) st).vendorBrands)
      = getDoc b st.vendorBrands := by
  induction l generalizing st with
  | nil => rfl
  | cons a t ih =>
    rw [List.foldl_cons]
    rw [ih _ (fun h hh => hb h (List.mem_cons_of_mem a hh))]
    rw [loop2Step_eq]
    exact getDoc_setDoc_ne _ _ (hb a (List.mem_cons_self a t))

theorem getDoc_vendorPrices_loop2_frame (pre : GPState) (now : Int) (dateKey : String)
    (l : List Hit) (st : GPState) {k : String}
    (hk : ∀ h ∈ l, k ≠ vpDocId (Hit.brand h) dateKey) :
    getDoc k ((l.foldl (loop2Step pre now dateKey) st).vendorPrices)
      = getDoc k st.vendorPrices := by
  induction l generalizing st with
  | nil => rfl
  | cons a t ih =>
    rw [List.foldl_cons]
    rw [ih _ (fun h hh => hk h (List.mem_cons_of_mem a hh))]
    rw [loop2Step_eq]
    exact getDoc_setDoc_ne _ _ (Ne.symm (hk a (List.mem_cons_self a t)))

theorem getDoc_vendorBrands_loop2_mem (pre : GPState) (now : Int) (dateKey : String)
    (l : List Hit) (st : GPState) {h : Hit}
    (hnd : (l.map Hit.brand).Nodup) (hh : h ∈ l) :
    getDoc h.brand ((l.foldl (loop2Step pre now dateKey) st).vendorBrands)
      = some ⟨true, some now, some h.price, h.url, h.skuCode⟩ := by
  induction l generalizing st with
  | nil => cases hh
  | cons a t ih =>
    rw [List.foldl_cons]
    simp only [List.map_cons, List.nodup_cons] at hnd
    rcases List.mem_cons.mp hh with rfl | hht
    · rw [getDoc_vendorBrands_loop2_frame pre now dateKey t _
        (fun h' hh' he => hnd.1 (by rw [← he]; exact List.mem_map.mpr ⟨h', hh', rfl⟩))]
      rw [loop2Step_eq]
      exact getDoc_setDoc_self _ _ _
    · exact ih _ hnd.2 hht

theorem getDoc_vendorPrices_loop2_mem (pre : GPState) (now : Int) (dateKey : String)
    (l : List Hit) (st : GPState) {h : Hit}
    (hnd : (l.map Hit.brand).Nodup) (hh : h ∈ l) :
    getDoc (vpDocId h.brand dateKey) ((l.foldl (loop2Step pre now dateKey) st).vendorPrices)
      = some ⟨h.price, now⟩ := by
  induction l generalizing st with
  | nil => cases hh
  | cons a t ih =>
    rw [List.foldl_cons]
    simp only [List.map_cons, List.nodup_cons] at hnd
    rcases List.mem_cons.mp hh with rfl | hht
    · rw [getDoc_vendorPrices_loop2_frame pre now dateKey t _
        (fun h' hh' he => hnd.1 (by
          rw [vpDocId_inj dateKey he]
          exact List.mem_map.mpr ⟨h', hh', rfl⟩))]
      rw [loop2Step_eq]
      exact getDoc_setDoc_self _ _ _
    · exact ih _ hnd.2 hht

/-! ## `allHitsMap` lemmas -/

theorem allHitsMapGet_foldl_some (hits : List Hit) (b : String) (h0 : Hit) :
    ∃ h, hits.foldl (fun acc h => if h.brand = b then some h else acc) (some h0) = some h := by
  induction hits generalizing h0 with
  | nil => exact ⟨h0, rfl⟩
  | cons a t ih =>
    rw [List.foldl_cons]
    by_cases ha : a.brand = b
    · simpa [ha] using ih a
    · simpa [ha] using ih h0

theorem allHitsMapGet_brand {hits : List Hit} {b : String} {h : Hit}
    (hg : allHitsMapGet hits b = some h) : h.brand = b ∧ h ∈ hits := by
  unfold allHitsMapGet at hg
  induction hits using List.reverseRecOn with
  | nil => simp at hg
  | append_singleton t a ih =>
    rw [List.foldl_append, List.foldl_cons, List.foldl_nil] at hg
    by_cases ha : a.brand = b
    · rw [if_pos ha] at hg
      have hah : a = h := by injection hg
      subst hah
      exact ⟨ha, List.mem_append.mpr (Or.inr (by simp))⟩
    · rw [if_neg ha] at hg
      obtain ⟨hb, hm⟩ := ih hg
      exact ⟨hb, List.mem_append.mpr (Or.inl hm)⟩

theorem allHitsMapGet_of_none {hits : List Hit} {b : String}
    (hg : allHitsMapGet hits b = none) : ∀ h ∈ hits, Hit.brand h ≠ b := by
  intro h hh he
  unfold allHitsMapGet at hg
  obtain ⟨l1, l2, rfl⟩ := List.append_of_mem hh
  rw [List.foldl_append, List.foldl_cons] at hg
  rw [if_pos he] at hg
  obtain ⟨h', hh'⟩ := allHitsMapGet_foldl_some l2 b h
  rw [hh'] at hg
  cases hg

theorem allHitsMapGet_of_mem_nodup {hits : List Hit} {h : Hit}
    (hnd : (hits.map Hit.brand).Nodup) (hh : h ∈ hits) :
    allHitsMapGet hits h.brand = some h := by
  unfold allHitsMapGet
  obtain ⟨l1, l2, rfl⟩ := List.append_of_mem hh
  rw [List.foldl_append, List.foldl_cons]
  rw [if_pos rfl]
  have hnb : ∀ x ∈ l2, Hit.brand x ≠ h.brand := by
    intro x hx he
    rw [List.map_append, List.map_cons] at hnd
    have := (List.nodup_append.mp hnd).2.1
    rw [List.nodup_cons] at this
    exact this.1 (he ▸ List.mem_map.mpr ⟨x, hx, rfl⟩)
  clear hh hnd
  induction l2 with
  | nil => rfl
  | cons a t ih =>
    rw [List.foldl_cons]
    rw [if_neg (hnb a (List.mem_cons_self a t))]
    exact ih (fun x hx => hnb x (List.mem_cons_of_mem a hx))

/-! ## Phase-1 structural lemmas -/

theorem map_filterMap_sublist {α β γ : Type} (f : α → Option β) (g : β → γ) (g' : α → γ)
    (H : ∀ a b, f a = some b → g b = g' a) (l : List α) :
    ((l.filterMap f).map g).Sublist (l.map g') := by
  induction l with
  | nil => simp
  | cons a t ih =>
    rcases hf : f a with _ | b
    · rw [List.filterMap_cons_none hf, List.map_cons]
      exact ih.cons _
    · rw [List.filterMap_cons_some hf, List.map_cons, List.map_cons, H a b hf]
      exact ih.cons₂ _

theorem existingHitCheck_brand {b : String} {r : Option Enhanced} {h : Hit}
    (he : existingHitCheck b r = some h) : h.brand = b := by
  rcases r with _ | e
  · cases he
  · rcases hp : e.price with _ | p <;> simp only [existingHitCheck, hp] at he
    · cases he
    · by_cases hz : p ≠ 0
      · rw [if_pos hz] at he
        cases Option.some.inj he
        rfl
      · rw [if_neg hz] at he
        cases he

theorem variantHitCheck_brand {b : String} {r : Option Enhanced} {h : Hit}
    (he : variantHitCheck b r = some h) : h.brand = b := by
  rcases r with _ | e
  · cases he
  · rcases hp : e.price with _ | p <;> simp only [variantHitCheck, hp] at he
    · cases he
    · by_cases hz : p ≠ 0 ∧ urlTruthy e.url
      · rw [if_pos hz] at he
        cases Option.some.inj he
        rfl
      · rw [if_neg hz] at he
        cases he

theorem findSome?_eq_some_exists {α β : Type} {f : α → Option β} {l : List α} {b : β}
    (h : l.findSome? f = some b) : ∃ a ∈ l, f a = some b := by
  induction l with
  | nil => simp at h
  | cons a t ih =>
    rw [List.findSome?_cons] at h
    rcases hf : f a with _ | v
    · rw [hf] at h
      obtain ⟨a', ha', hfa'⟩ := ih h
      exact ⟨a', List.mem_cons_of_mem a ha', hfa'⟩
    · rw [hf] at h
      cases h
      exact ⟨a, List.mem_cons_self a t, hf⟩

theorem firstVariantHit_brand {o : FetchOracle} {b : String} {codes : List String} {h : Hit}
    (he : firstVariantHit o b codes = some h) : h.brand = b := by
  obtain ⟨c, -, hc⟩ := findSome?_eq_some_exists he
  exact variantHitCheck_brand hc

theorem existingHits_brands_sublist (st : GPState) (o : FetchOracle) :
    ((existingHits st o).map Hit.brand).Sublist (st.vendorBrands.map Prod.fst) := by
  have h1 : ((existingHits st o).map Hit.brand).Sublist ((activeBrandDocs st).map Prod.fst) :=
    map_filterMap_sublist _ _ _ (fun p h hp => existingHitCheck_brand hp) _
  exact h1.trans ((List.filter_sublist _).map Prod.fst)

theorem mem_existingBrands_of_mem_existingHits {st : GPState} {o : FetchOracle} {h : Hit}
    (hh : h ∈ existingHits st o) : h.brand ∈ existingBrandsToEnhance st := by
  obtain ⟨p, hp, hc⟩ := List.mem_filterMap.mp hh
  rw [existingHitCheck_brand hc]
  exact List.mem_map.mpr ⟨p, hp, rfl⟩

theorem doc_of_mem_existingHits {st : GPState} {o : FetchOracle} {h : Hit}
    (hnd : (st.vendorBrands.map Prod.fst).Nodup) (hh : h ∈ existingHits st o) :
    ∃ d, getDoc h.brand st.vendorBrands = some d ∧ d.active = true := by
  obtain ⟨p, hp, hc⟩ := List.mem_filterMap.mp hh
  have hmem : p ∈ st.vendorBrands := List.mem_of_mem_filter hp
  have hact : p.2.active = true := by simpa using (List.mem_filter.mp hp).2
  refine ⟨p.2, ?_, hact⟩
  rw [existingHitCheck_brand hc]
  exact getDoc_eq_some_of_mem hnd (by simpa using hmem)

theorem doc_of_mem_existingBrands {st : GPState} {b : String}
    (hnd : (st.vendorBrands.map Prod.fst).Nodup) (hb : b ∈ existingBrandsToEnhance st) :
    ∃ d, getDoc b st.vendorBrands = some d ∧ d.active = true := by
  obtain ⟨p, hp, hpb⟩ := List.mem_map.mp hb
  have hmem : p ∈ st.vendorBrands := List.mem_of_mem_filter hp
  have hact : p.2.active = true := by simpa using (List.mem_filter.mp hp).2
  refine ⟨p.2, ?_, hact⟩
  subst hpb
  exact getDoc_eq_some_of_mem hnd (by simpa using hmem)

theorem mem_existingBrands_of_active {st : GPState} {b : String} {d : VBDoc}
    (hg : getDoc b st.vendorBrands = some d) (hact : d.active = true) :
    b ∈ existingBrandsToEnhance st := by
  have hmem : (b, d) ∈ st.vendorBrands := mem_of_getDoc_eq_some hg
  exact List.mem_map.mpr ⟨(b, d), List.mem_filter.mpr ⟨hmem, by simpa using hact⟩, rfl⟩

theorem missingHits_brands_sublist (st : GPState) (o : FetchOracle) :
    ((missingHits st o).map Hit.brand).Sublist (brandsToSearch st o) := by
  have h1 := map_filterMap_sublist
    (fun b => if st.eanCodeVariations.isEmpty then none
      else firstVariantHit o b st.eanCodeVariations)
    Hit.brand (fun b => b) ?_ (brandsToSearch st o)
  · simpa only [List.map_id'] using h1
  · intro b h hb
    have hb' : (if st.eanCodeVariations.isEmpty then none
        else firstVariantHit o b st.eanCodeVariations) = some h := hb
    show h.brand = b
    by_cases he : st.eanCodeVariations.isEmpty
    · rw [if_pos he] at hb'
      cases hb'
    · rw [if_neg he] at hb'
      exact firstVariantHit_brand hb'

theorem brandsToSearch_not_existing {st : GPState} {o : FetchOracle} {b : String}
    (hb : b ∈ brandsToSearch st o) : b ∉ (existingHits st o).map Hit.brand := by
  intro hmem
  have hf := (List.mem_filter.mp hb).2
  have hc : ((existingHits st o).map Hit.brand).contains b = true :=
    List.elem_eq_true_of_mem hmem
  rw [hc] at hf
  simp at hf

theorem brandsToSearch_nodup (st : GPState) (o : FetchOracle) :
    (brandsToSearch st o).Nodup :=
  List.Nodup.filter _ (by decide)

theorem missingHits_brands_nodup (st : GPState) (o : FetchOracle) :
    ((missingHits st o).map Hit.brand).Nodup :=
  (missingHits_brands_sublist st o).nodup (brandsToSearch_nodup st o)

theorem allHits_brands_nodup {st : GPState} {o : FetchOracle}
    (hnd : (st.vendorBrands.map Prod.fst).Nodup) :
    ((allHits st o).map Hit.brand).Nodup := by
  unfold allHits
  rw [List.map_append]
  refine List.Nodup.append ((existingHits_brands_sublist st o).nodup hnd)
    (missingHits_brands_nodup st o) ?_
  intro b hb1 hb2
  obtain ⟨h, hh, rfl⟩ := List.mem_map.mp hb2
  obtain ⟨b', hb', hfb'⟩ := List.mem_filterMap.mp hh
  have hbrand : h.brand = b' := by
    by_cases he : st.eanCodeVariations.isEmpty
    · rw [if_pos he] at hfb'
      cases hfb'
    · rw [if_neg he] at hfb'
      exact firstVariantHit_brand hfb'
  exact brandsToSearch_not_existing (hbrand ▸ hb') hb1

theorem relevantBrands_nodup (st : GPState) (o : FetchOracle) :
    (relevantBrands st o).Nodup :=
  List.nodup_dedup _

theorem mem_relevantBrands {st : GPState} {o : FetchOracle} {b : String} :
    b ∈ relevantBrands st o ↔
      b ∈ existingBrandsToEnhance st ∨ b ∈ (missingHits st o).map Hit.brand := by
  unfold relevantBrands
  rw [List.mem_dedup, List.mem_append]

theorem allHitsMapGet_of_missing {st : GPState} {o : FetchOracle} {h : Hit}
    (hnd : (st.vendorBrands.map Prod.fst).Nodup) (hh : h ∈ missingHits st o) :
    allHitsMapGet (allHits st o) h.brand = some h :=
  allHitsMapGet_of_mem_nodup (allHits_brands_nodup hnd)
    (List.mem_append.mpr (Or.inr hh))

theorem allHitsMapGet_of_existing {st : GPState} {o : FetchOracle} {h : Hit}
    (hnd : (st.vendorBrands.map Prod.fst).Nodup) (hh : h ∈ existingHits st o) :
    allHitsMapGet (allHits st o) h.brand = some h :=
  allHitsMapGet_of_mem_nodup (allHits_brands_nodup hnd)
    (List.mem_append.mpr (Or.inl hh))

/-! ## After-loops document characterization -/

theorem runLoops_vb_missing (pre : GPState) (hits : List Hit) (now : Int) (dateKey : String)
    {missing : List Hit} (relevant : List String) {h : Hit}
    (hnd2 : (missing.map Hit.brand).Nodup) (hh : h ∈ missing) :
    getDoc h.brand (runLoops pre hits missing relevant now dateKey).vendorBrands
      = some ⟨true, some now, some h.price, h.url, h.skuCode⟩ :=
  getDoc_vendorBrands_loop2_mem pre now dateKey missing _ hnd2 hh

theorem runLoops_vb_not_missing (pre : GPState) (hits : List Hit) (now : Int)
    (dateKey : String) {missing : List Hit} {relevant : List String} {b : String}
    (hnm : ∀ h ∈ missing, Hit.brand h ≠ b) (hndr : relevant.Nodup) (hbr : b ∈ relevant) :
    getDoc b (runLoops pre hits missing relevant now dateKey).vendorBrands
      = match loop1Write pre hits now b with
        | some v => some v
        | none => getDoc b pre.vendorBrands := by
  unfold runLoops
  rw [getDoc_vendorBrands_loop2_frame pre now dateKey missing _ hnm]
  exact getDoc_vendorBrands_loop1_mem pre hits now dateKey relevant pre hndr hbr

theorem runLoops_vb_frame (pre : GPState) (hits : List Hit) (now : Int)
    (dateKey : String) {missing : List Hit} {relevant : List String} {b : String}
    (hnm : ∀ h ∈ missing, Hit.brand h ≠ b) (hbr : b ∉ relevant) :
    getDoc b (runLoops pre hits missing relevant now dateKey).vendorBrands
      = getDoc b pre.vendorBrands := by
  unfold runLoops
  rw [getDoc_vendorBrands_loop2_frame pre now dateKey missing _ hnm]
  exact getDoc_vendorBrands_loop1_notMem pre hits now dateKey relevant pre hbr

theorem runLoops_vp_missing (pre : GPState) (hits : List Hit) (now : Int) (dateKey : String)
    {missing : List Hit} (relevant : List String) {h : Hit}
    (hnd2 : (missing.map Hit.brand).Nodup) (hh : h ∈ missing) :
    getDoc (vpDocId h.brand dateKey)
        (runLoops pre hits missing relevant now dateKey).vendorPrices
      = some ⟨h.price, now⟩ :=
  getDoc_vendorPrices_loop2_mem pre now dateKey missing _ hnd2 hh

theorem runLoops_vp_not_missing (pre : GPState) (hits : List Hit) (now : Int)
    (dateKey : String) {missing : List Hit} {relevant : List String} {b : String}
    (hnm : ∀ h ∈ missing, Hit.brand h ≠ b) (hndr : relevant.Nodup) (hbr : b ∈ relevant) :
    getDoc (vpDocId b dateKey)
        (runLoops pre hits missing relevant now dateKey).vendorPrices
      = match loop1VP pre hits b with
        | some p => some ⟨p, now⟩
        | none => getDoc (vpDocId b dateKey) pre.vendorPrices := by
  unfold runLoops
  rw [getDoc_vendorPrices_loop2_frame pre now dateKey missing _
    (fun h' hh' hke => hnm h' hh' (vpDocId_inj dateKey hke).symm)]
  exact getDoc_vendorPrices_loop1_mem pre hits now dateKey relevant pre hndr hbr

/-! ## Merge-transaction projections and run shapes -/

theorem mergeTxn_scalar (pre : GPState) (hits missing : List Hit) (relevant : List String)
    (now : Int) (dateKey : String) :
    (mergeTxn pre hits missing relevant now dateKey).lock = pre.lock ∧
    (mergeTxn pre hits missing relevant now dateKey).activeVendorBrands
      = some (finalActiveCount pre hits relevant now) ∧
    (mergeTxn pre hits missing relevant now dateKey).bestPrice
      = (match selectLowest hits with
         | some h => some ⟨h.brand, h.price, now⟩
         | none => pre.bestPrice) := by
  unfold mergeTxn
  have h := scalarFields_loop2_foldl pre now dateKey missing
    (relevant.foldl (loop1Step pre hits now dateKey) pre)
  rw [scalarFields_loop1_foldl] at h
  simp only [scalarFields, Prod.mk.injEq] at h
  obtain ⟨-, -, hbp, -, hlk⟩ := h
  refine ⟨hlk, rfl, ?_⟩
  cases selectLowest hits with
  | none => exact hbp
  | some hbest => rfl

theorem processVendorPrices_acquired {st : GPState} {o : FetchOracle} {now : Int}
    {requestId dateKey : String} {lock' : Option LockDoc}
    (hq : tryAcquireLock st.masterExists st.lock now requestId = (.acquired, lock'))
    (hm : st.masterExists = true) :
    processVendorPrices st o now requestId dateKey =
      (⟨200, false, "Processing succeeded"⟩,
       { mergeTxn { st with lock := lock' } (allHits st o) (missingHits st o)
           (relevantBrands st o) now dateKey with lock := releaseLock lock' requestId },
       true) := by
  obtain ⟨me, ev, bp, avb, vb, vp, lk⟩ := st
  simp only at hm
  subst hm
  simp only [processVendorPrices, hq, mergeTxnE, Bool.not_true, Bool.false_eq_true,
    if_false, ite_false]
  rw [(mergeTxn_scalar ⟨true, ev, bp, avb, vb, vp, lock'⟩ (allHits ⟨true, ev, bp, avb, vb, vp, lock'⟩ o)
    (missingHits ⟨true, ev, bp, avb, vb, vp, lock'⟩ o)
    (relevantBrands ⟨true, ev, bp, avb, vb, vp, lock'⟩ o) now dateKey).1]
  rfl

/-! ## Rate-limiter lemmas -/

theorem tokens_refillTokens_le (limits : RateLimits) (b : Bucket) (now : Int) :
    (refillTokens limits b now).tokens ≤ (limits.burst : ℚ) :=
  min_le_left _ _

theorem tokens_stepBucket_le (limits : RateLimits) (b : Bucket) (op : BucketOp)
    (h : b.tokens ≤ (limits.burst : ℚ)) :
    (stepBucket limits b op).tokens ≤ (limits.burst : ℚ) := by
  cases op with
  | refill now => exact tokens_refillTokens_le limits b now
  | tryAcquire now =>
    simp only [stepBucket]
    split
    · calc (refillTokens limits b now).tokens - 1
          ≤ (refillTokens limits b now).tokens := by linarith
        _ ≤ (limits.burst : ℚ) := tokens_refillTokens_le limits b now
    · exact tokens_refillTokens_le limits b now
  | drainWaiter =>
    simp only [stepBucket]
    split
    · calc b.tokens - 1 ≤ b.tokens := by linarith
        _ ≤ (limits.burst : ℚ) := h
    · exact h
  | penalize => exact le_trans (min_le_left _ _) h

theorem tokens_runBucket_le (limits : RateLimits) (ops : List BucketOp) (b : Bucket)
    (h : b.tokens ≤ (limits.burst : ℚ)) :
    (runBucket limits b ops).tokens ≤ (limits.burst : ℚ) := by
  induction ops generalizing b with
  | nil => exact h
  | cons op t ih => exact ih _ (tokens_stepBucket_le limits b op h)

theorem immediateGrants_le (n : Nat) : ∀ t : ℚ, (immediateGrants t n : ℚ) ≤ max t 0 := by
  induction n with
  | zero => intro t; simp [immediateGrants, le_max_right]
  | succ n ih =>
    intro t
    by_cases h : 1 ≤ t
    · have h1 : max (t - 1) 0 = t - 1 := max_eq_left (by linarith)
      have h2 := ih (t - 1)
      rw [h1] at h2
      simp only [immediateGrants, if_pos h]
      push_cast
      have : max t 0 = t := max_eq_left (by linarith)
      rw [this]
      linarith
    · simp only [immediateGrants, if_neg h]
      exact ih t

/-! ## Key-set lemmas for the write loops -/

theorem mem_keys_setDoc {α : Type} {l : List (String × α)} {b k : String} (v : α)
    (hb : b ∈ l.map Prod.fst) : b ∈ (setDoc k v l).map Prod.fst := by
  rw [keys_setDoc]
  split
  · exact hb
  · exact List.mem_append.mpr (Or.inl hb)

theorem getDoc_mem_keys {α : Type} {l : List (String × α)} {b : String} {v : α}
    (h : getDoc b l = some v) : b ∈ l.map Prod.fst :=
  List.mem_map.mpr ⟨(b, v), mem_of_getDoc_eq_some h, rfl⟩

theorem keys_loop1Step_superset (pre : GPState) (hits : List Hit) (now : Int)
    (dateKey : String) (st : GPState) (b' : String) {b : String}
    (hb : b ∈ st.vendorBrands.map Prod.fst) :
    b ∈ (loop1Step pre hits now dateKey st b').vendorBrands.map Prod.fst := by
  rw [loop1Step_eq]
  rcases loop1Write pre hits now b' with _ | v
  · exact hb
  · exact mem_keys_setDoc v hb

theorem keys_loop2Step_superset (pre : GPState) (now : Int) (dateKey : String)
    (st : GPState) (h : Hit) {b : String} (hb : b ∈ st.vendorBrands.map Prod.fst) :
    b ∈ (loop2Step pre now dateKey st h).vendorBrands.map Prod.fst := by
  rw [loop2Step_eq]
  exact mem_keys_setDoc _ hb

theorem keys_loop1_foldl_superset (pre : GPState) (hits : List Hit) (now : Int)
    (dateKey : String) (l : List String) (st : GPState) {b : String}
    (hb : b ∈ st.vendorBrands.map Prod.fst) :
    b ∈ ((l.foldl (loop1Step pre hits now dateKey) st).vendorBrands.map Prod.fst) := by
  induction l generalizing st with
  | nil => exact hb
  | cons a t ih => exact ih _ (keys_loop1Step_superset pre hits now dateKey st a hb)

theorem keys_loop2_foldl_superset (pre : GPState) (now : Int) (dateKey : String)
    (l : List Hit) (st : GPState) {b : String}
    (hb : b ∈ st.vendorBrands.map Prod.fst) :
    b ∈ ((l.foldl (loop2Step pre now dateKey) st).vendorBrands.map Prod.fst) := by
  induction l generalizing st with
  | nil => exact hb
  | cons a t ih => exact ih _ (keys_loop2Step_superset pre now dateKey st a hb)

theorem keys_runLoops_superset (pre : GPState) (hits missing : List Hit)
    (relevant : List String) (now : Int) (dateKey : String) {b : String}
    (hb : b ∈ pre.vendorBrands.map Prod.fst) :
    b ∈ (runLoops pre hits missing relevant now dateKey).vendorBrands.map Prod.fst :=
  keys_loop2_foldl_superset pre now dateKey missing _
    (keys_loop1_foldl_superset pre hits now dateKey relevant pre hb)

theorem nodup_keys_loop1Step (pre : GPState) (hits : List Hit) (now : Int)
    (dateKey : String) (st : GPState) (b' : String)
    (hnd : (st.vendorBrands.map Prod.fst).Nodup) :
    ((loop1Step pre hits now dateKey st b').vendorBrands.map Prod.fst).Nodup := by
  rw [loop1Step_eq]
  rcases loop1Write pre hits now b' with _ | v
  · exact hnd
  · exact nodup_keys_setDoc _ v hnd

theorem nodup_keys_loop2Step (pre : GPState) (now : Int) (dateKey : String)
    (st : GPState) (h : Hit)
    (hnd : (st.vendorBrands.map Prod.fst).Nodup) :
    ((loop2Step pre now dateKey st h).vendorBrands.map Prod.fst).Nodup := by
  rw [loop2Step_eq]
  exact nodup_keys_setDoc _ _ hnd

theorem nodup_keys_loop1_foldl (pre : GPState) (hits : List Hit) (now : Int)
    (dateKey : String) (l : List String) (st : GPState)
    (hnd : (st.vendorBrands.map Prod.fst).Nodup) :
    (((l.foldl (loop1Step pre hits now dateKey) st).vendorBrands.map Prod.fst)).Nodup := by
  induction l generalizing st with
  | nil => exact hnd
  | cons a t ih => exact ih _ (nodup_keys_loop1Step pre hits now dateKey st a hnd)

theorem nodup_keys_loop2_foldl (pre : GPState) (now : Int) (dateKey : String)
    (l : List Hit) (st : GPState)
    (hnd : (st.vendorBrands.map Prod.fst).Nodup) :
    (((l.foldl (loop2Step pre now dateKey) st).vendorBrands.map Prod.fst)).Nodup := by
  induction l generalizing st with
  | nil => exact hnd
  | cons a t ih => exact ih _ (nodup_keys_loop2Step pre now dateKey st a hnd)

theorem nodup_keys_runLoops (pre : GPState) (hits missing : List Hit)
    (relevant : List String) (now : Int) (dateKey : String)
    (hnd : (pre.vendorBrands.map Prod.fst).Nodup) :
    ((runLoops pre hits missing relevant now dateKey).vendorBrands.map Prod.fst).Nodup :=
  nodup_keys_loop2_foldl pre now dateKey missing _
    (nodup_keys_loop1_foldl pre hits now dateKey relevant pre hnd)

/-! ## Active-count lemmas -/

theorem runLoops_active_char (st : GPState) (o : FetchOracle) (now : Int) (dateKey : String)
    (lockv : Option LockDoc)
    (hnd : (st.vendorBrands.map Prod.fst).Nodup) (b : String)
    (hbr : b ∈ relevantBrands st o) :
    ((getDoc b (runLoops { st with lock := lockv } (allHits st o) (missingHits st o)
        (relevantBrands st o) now dateKey).vendorBrands).map VBDoc.active).getD false
      = countPredicate (getDoc b st.vendorBrands) (allHitsMapGet (allHits st o) b) now := by
  by_cases hbm : b ∈ (missingHits st o).map Hit.brand
  · obtain ⟨h', hh', hbe⟩ := List.mem_map.mp hbm
    subst hbe
    rw [runLoops_vb_missing { st with lock := lockv } (allHits st o) now dateKey
      (relevantBrands st o) (missingHits_brands_nodup st o) hh',
      allHitsMapGet_of_missing hnd hh']
    simp [countPredicate]
  · have hnm : ∀ h'' ∈ missingHits st o, Hit.brand h'' ≠ b := fun h'' hh'' he =>
      hbm (by rw [← he]; exact List.mem_map.mpr ⟨h'', hh'', rfl⟩)
    have hex : b ∈ existingBrandsToEnhance st := by
      rcases mem_relevantBrands.mp hbr with h | h
      · exact h
      · exact absurd h hbm
    obtain ⟨d, hdoc, hact⟩ := doc_of_mem_existingBrands hnd hex
    rw [runLoops_vb_not_missing { st with lock := lockv } (allHits st o) now dateKey hnm
      (relevantBrands_nodup st o) hbr]
    have hdoc' : getDoc b ({ st with lock := lockv } : GPState).vendorBrands = some d := hdoc
    rcases hhit : allHitsMapGet (allHits st o) b with _ | h
    · rcases hlf : d.lastFetchDate with _ | t
      · simp [loop1Write, countPredicate, hdoc', hdoc, hhit, hact, hlf]
      · by_cases ht : t < cutoffDate now
        · simp [loop1Write, countPredicate, hdoc', hdoc, hhit, hact, hlf, ht]
        · simp [loop1Write, countPredicate, hdoc', hdoc, hhit, hact, hlf, ht]
    · simp [loop1Write, countPredicate, hdoc', hdoc, hhit, hact]

theorem runLoops_active_frame_false (st : GPState) (o : FetchOracle) (now : Int)
    (dateKey : String) (lockv : Option LockDoc)
    (hnd : (st.vendorBrands.map Prod.fst).Nodup) {b : String}
    (hbr : b ∉ relevantBrands st o) :
    ((getDoc b (runLoops { st with lock := lockv } (allHits st o) (missingHits st o)
        (relevantBrands st o) now dateKey).vendorBrands).map VBDoc.active).getD false
      = false := by
  have hnm : ∀ h' ∈ missingHits st o, Hit.brand h' ≠ b := fun h' hh' he =>
    hbr (mem_relevantBrands.mpr (Or.inr (by
      rw [← he]
      exact List.mem_map.mpr ⟨h', hh', rfl⟩)))
  rw [runLoops_vb_frame { st with lock := lockv } (allHits st o) now dateKey hnm hbr]
  show ((getDoc b st.vendorBrands).map VBDoc.active).getD false = false
  rcases hg : getDoc b st.vendorBrands with _ | d
  · rfl
  · by_cases hactb : d.active
    · exact absurd (mem_relevantBrands.mpr
        (Or.inl (mem_existingBrands_of_active hg hactb))) hbr
    · simp [hactb]

theorem filter_active_length : ∀ {l : List (String × VBDoc)}, (l.map Prod.fst).Nodup →
    (l.filter (fun p => p.2.active)).length
      = (l.map Prod.fst).countP (fun b => ((getDoc b l).map VBDoc.active).getD false) := by
  intro l
  induction l with
  | nil => intro _; rfl
  | cons p t ih =>
    intro hnd
    obtain ⟨k, v⟩ := p
    simp only [List.map_cons, List.nodup_cons] at hnd
    obtain ⟨hk, hndt⟩ := hnd
    have hcong : (t.map Prod.fst).countP
        (fun b => ((getDoc b ((k, v) :: t)).map VBDoc.active).getD false)
        = (t.map Prod.fst).countP (fun b => ((getDoc b t).map VBDoc.active).getD false) := by
      apply List.countP_congr
      intro b hb
      have hbk : b ≠ k := fun he => hk (he ▸ hb)
      rw [show getDoc b ((k, v) :: t) = getDoc b t from by simp [getDoc, hbk]]
    rw [List.map_cons, List.countP_cons, hcong, ← ih hndt, List.filter_cons]
    have hgk : getDoc k ((k, v) :: t) = some v := by simp [getDoc]
    by_cases hv : v.active
    · simp [hv, hgk]
    · simp [hv, hgk]

theorem countP_eq_of_subset {r l : List String} (hr : r.Nodup) (hl : l.Nodup)
    (hsub : ∀ b ∈ r, b ∈ l) (p : String → Bool) (hp : ∀ b ∈ l, p b = true → b ∈ r) :
    l.countP p = r.countP p := by
  rw [List.countP_eq_length_filter, List.countP_eq_length_filter]
  rw [← List.toFinset_card_of_nodup (hl.filter p), ← List.toFinset_card_of_nodup (hr.filter p)]
  congr 1
  ext b
  simp only [List.mem_toFinset, List.mem_filter]
  constructor
  · rintro ⟨hbl, hpb⟩
    exact ⟨hp b hbl hpb, hpb⟩
  · rintro ⟨hbr, hpb⟩
    exact ⟨hsub b hbr, hpb⟩

theorem relevant_subset_keys (st : GPState) (o : FetchOracle) (now : Int)
    (dateKey : String) (lockv : Option LockDoc)
    (hnd : (st.vendorBrands.map Prod.fst).Nodup) :
    ∀ b ∈ relevantBrands st o,
      b ∈ (runLoops { st with lock := lockv } (allHits st o) (missingHits st o)
        (relevantBrands st o) now dateKey).vendorBrands.map Prod.fst := by
  intro b hb
  rcases mem_relevantBrands.mp hb with h | h
  · obtain ⟨d, hdoc, -⟩ := doc_of_mem_existingBrands hnd h
    exact keys_runLoops_superset _ _ _ _ _ _
      (getDoc_mem_keys (show getDoc b ({ st with lock := lockv } : GPState).vendorBrands
        = some d from hdoc))
  · obtain ⟨h', hh', hbe⟩ := List.mem_map.mp h
    subst hbe
    exact getDoc_mem_keys (runLoops_vb_missing { st with lock := lockv } (allHits st o)
      now dateKey (relevantBrands st o) (missingHits_brands_nodup st o) hh')

/-! ## Claim theorems -/

/-- C2, counterexample: the claim says an unexpired lease held by the
*same* holder is re-acquirable, but `tryAcquireLock` has no same-holder
exception — with an unexpired lease held by `"A"`, a call by `"A"` itself
returns `already_locked` (Busy), not success. -/
theorem tryAcquireLock_same_holder_busy :
    (tryAcquireLock true (some ⟨"A", some 0, 0⟩) 0 "A").1 = AcquireResult.busy "A" 1200000 ∧
    (tryAcquireLock true (some ⟨"A", some 0, 0⟩) 0 "A").1 ≠ AcquireResult.acquired := by
  decide

/-- C2, amended: `tryAcquireLock` fails with `document_not_found` exactly
when the record does not exist; fails with `already_locked` (returning the
current holder and the remaining TTL) whenever an unexpired lease (one with
a `lockedAt` younger than `LOCK_TTL_MS`) exists — regardless of whether the
holder is the caller itself; and in every other case (no lease, a lease
without `lockedAt`, or an expired lease — stale-lease takeover) succeeds
and overwrites the lease with holder `requestId` and `lockedAt = now`. -/
theorem tryAcquireLock_cases (parentExists : Bool) (lock : Option LockDoc) (now : Int)
    (requestId : String) :
    (parentExists = false →
      tryAcquireLock parentExists lock now requestId = (.notFound, lock)) ∧
    (∀ l t, parentExists = true → lock = some l → l.lockedAt = some t →
      now - t < LOCK_TTL_MS →
      tryAcquireLock parentExists lock now requestId
        = (.busy l.lockedBy (LOCK_TTL_MS - (now - t)), lock)) ∧
    (parentExists = true →
      (∀ l, lock = some l → ∀ t, l.lockedAt = some t → LOCK_TTL_MS ≤ now - t) →
      tryAcquireLock parentExists lock now requestId
        = (.acquired, some ⟨requestId, some now, 0⟩)) := by
  refine ⟨?_, ?_, ?_⟩
  · rintro rfl
    rfl
  · rintro l t rfl rfl hla hlt
    simp only [tryAcquireLock, hla, Bool.not_true, Bool.false_eq_true, if_false]
    rw [if_pos hlt]
  · rintro rfl hexp
    rcases lock with _ | l
    · rfl
    · rcases hla : l.lockedAt with _ | t
      · simp [tryAcquireLock, hla]
      · have h := hexp l rfl t hla
        simp [tryAcquireLock, hla, not_lt.mpr h]

/-- Witness for C2's amended theorem: a different holder is refused while
the lease is unexpired, and an absent lease is acquired. -/
theorem tryAcquireLock_cases_witness :
    tryAcquireLock true (some ⟨"B", some 0, 0⟩) 100 "A"
      = (.busy "B" 1199900, some ⟨"B", some 0, 0⟩) ∧
    tryAcquireLock true none 5 "A" = (.acquired, some ⟨"A", some 5, 0⟩) := by
  constructor
  · have h := (tryAcquireLock_cases true (some ⟨"B", some 0, 0⟩) 100 "A").2.1
      ⟨"B", some 0, 0⟩ 0 rfl rfl rfl (by decide)
    norm_num [LOCK_TTL_MS] at h
    exact h
  · exact (tryAcquireLock_cases true none 5 "A").2.2 rfl (fun l hl => by cases hl)

/-- C10: `extendLock` performs no write when the lock document does not
exist (it never creates a lease) and no write when the lease is held by a
different `requestId` (it never modifies another holder's lease), so a
superseded holder's heartbeat can neither displace nor recreate the new
holder's lease. -/
theorem extendLock_no_create_no_steal (lock : Option LockDoc) (now : Int)
    (requestId : String) :
    (lock = none → extendLock lock now requestId = none) ∧
    (∀ l, lock = some l → l.lockedBy ≠ requestId →
      extendLock lock now requestId = some l) := by
  constructor
  · rintro rfl
    rfl
  · rintro l rfl hne
    simp [extendLock, hne]

/-- Witness for C10: a heartbeat by the superseded holder `"old"` leaves
the new holder's lease untouched, and extending a deleted lock writes
nothing. -/
theorem extendLock_no_create_no_steal_witness :
    extendLock none 50 "old" = none ∧
    extendLock (some ⟨"new", some 5, 0⟩) 999 "old" = some ⟨"new", some 5, 0⟩ := by
  constructor
  · exact (extendLock_no_create_no_steal none 50 "old").1 rfl
  · exact (extendLock_no_create_no_steal _ 999 "old").2 ⟨"new", some 5, 0⟩ rfl (by decide)

/-- C7: the processing-claim transaction settles in priority order — with
`processed = true` it reports already-processed and writes no claim; with
an unexpired claim (younger than the 5-minute `CLAIM_TTL_MS`) it returns
`claimed_by_other` and writes nothing; otherwise (unclaimed, or claim
expired) the attempt wins and the claim is recorded for this request. -/
theorem claimTransaction_priority (st : GPClaimState) (now : Int) (requestId : String)
    (hex : st.docExists = true) :
    (st.processed = true → claimTransaction st now requestId = (.alreadyProcessed, st)) ∧
    (∀ holder t, st.processed = false → st.processingClaimed = some holder →
      st.processingClaimedAt = some t → now - t < CLAIM_TTL_MS →
      claimTransaction st now requestId = (.claimedByOther holder, st)) ∧
    (st.processed = false →
      (st.processingClaimed = none ∨
        (∃ t, st.processingClaimedAt = some t ∧ CLAIM_TTL_MS ≤ now - t)) →
      claimTransaction st now requestId
        = (.won, { st with processingClaimed := some requestId,
                           processingClaimedAt := some now })) := by
  refine ⟨?_, ?_, ?_⟩
  · intro hp
    simp [claimTransaction, hex, hp]
  · intro holder t hp hc hca hlt
    simp only [claimTransaction, hex, hp, hc, hca, Bool.not_true, Bool.false_eq_true,
      if_false, Option.getD_some]
    rw [if_pos hlt]
  · intro hp hdis
    rcases hdis with hc | ⟨t, hca, hle⟩
    · simp [claimTransaction, hex, hp, hc]
    · rcases hc2 : st.processingClaimed with _ | holder
      · simp [claimTransaction, hex, hp, hc2]
      · simp only [claimTransaction, hex, hp, hc2, hca, Bool.not_true, Bool.false_eq_true,
          if_false, Option.getD_some]
        rw [if_neg (not_lt.mpr hle)]

/-- Witness for C7: a processed record refuses a claim; an unexpired
foreign claim returns busy; an expired claim is taken over. -/
theorem claimTransaction_priority_witness :
    claimTransaction ⟨true, true, some "w1", some 0⟩ 10 "w2"
      = (.alreadyProcessed, ⟨true, true, some "w1", some 0⟩) ∧
    claimTransaction ⟨true, false, some "w1", some 0⟩ 100 "w2"
      = (.claimedByOther "w1", ⟨true, false, some "w1", some 0⟩) ∧
    claimTransaction ⟨true, false, some "w1", some 0⟩ 400000 "w2"
      = (.won, ⟨true, false, some "w2", some 400000⟩) := by
  refine ⟨?_, ?_, ?_⟩
  · exact (claimTransaction_priority ⟨true, true, some "w1", some 0⟩ 10 "w2" rfl).1 rfl
  · exact (claimTransaction_priority ⟨true, false, some "w1", some 0⟩ 100 "w2" rfl).2.1
      "w1" 0 rfl rfl rfl (by decide)
  · exact (claimTransaction_priority ⟨true, false, some "w1", some 0⟩ 400000 "w2" rfl).2.2
      rfl (Or.inr ⟨0, rfl, by decide⟩)

/-- C9: for every origin (matched or not — `getLimits` supplies the
default tier for unmatched domains), along any sequence of bucket events
starting from the freshly created bucket the token count never exceeds the
configured `burst` (refills are capped at `burst`, all other events only
decrease tokens), and hence a burst of `n` back-to-back `acquireToken`
calls at one instant is granted immediately at most `burst` times. -/
theorem rateLimiter_burst_bound (domain : String) (start : Int) (ops : List BucketOp)
    (now : Int) (n : Nat) :
    (runBucket (getLimits domain) (initBucket (getLimits domain) start) ops).tokens
      ≤ ((getLimits domain).burst : ℚ) ∧
    immediateGrants ((refillTokens (getLimits domain)
        (runBucket (getLimits domain) (initBucket (getLimits domain) start) ops) now).tokens) n
      ≤ (getLimits domain).burst := by
  have h1 : (runBucket (getLimits domain) (initBucket (getLimits domain) start) ops).tokens
      ≤ ((getLimits domain).burst : ℚ) :=
    tokens_runBucket_le _ _ _ (le_refl _)
  refine ⟨h1, ?_⟩
  have h2 := tokens_refillTokens_le (getLimits domain)
    (runBucket (getLimits domain) (initBucket (getLimits domain) start) ops) now
  have h3 := immediateGrants_le n (refillTokens (getLimits domain)
    (runBucket (getLimits domain) (initBucket (getLimits domain) start) ops) now).tokens
  have h4 : ((immediateGrants ((refillTokens (getLimits domain)
      (runBucket (getLimits domain) (initBucket (getLimits domain) start) ops) now).tokens) n : Nat) : ℚ)
      ≤ ((getLimits domain).burst : ℚ) :=
    le_trans h3 (max_le h2 (by positivity))
  exact_mod_cast h4

/-- C4: `processVendorPrices` never raises — every outcome is a
status/message result with status 200, 404, 429 or 500 — and `releaseLock`
runs before returning exactly when the lock was acquired, on every
post-acquisition path (missing master, failed merge transaction, success). -/
theorem processVendorPrices_status_release (st : GPState) (o : FetchOracle) (now : Int)
    (requestId dateKey : String) :
    ((processVendorPrices st o now requestId dateKey).1.status = 200 ∨
     (processVendorPrices st o now requestId dateKey).1.status = 404 ∨
     (processVendorPrices st o now requestId dateKey).1.status = 429 ∨
     (processVendorPrices st o now requestId dateKey).1.status = 500) ∧
    ((processVendorPrices st o now requestId dateKey).2.2 = true ↔
      (tryAcquireLock st.masterExists st.lock now requestId).1 = .acquired) := by
  rcases hq : tryAcquireLock st.masterExists st.lock now requestId with ⟨res, lock'⟩
  cases res with
  | busy lb rem =>
    simp [processVendorPrices, hq]
  | notFound =>
    simp [processVendorPrices, hq]
  | acquired =>
    by_cases hmx : st.masterExists
    · simp only [processVendorPrices, hq]
      simp [hmx, mergeTxnE]
    · have hmx' : st.masterExists = false := by simpa using hmx
      simp only [processVendorPrices, hq]
      simp [hmx', mergeTxnE]

/-- C5: on a committed merge, when the run has no hits the `bestPrice`
field of the aggregate record is left unchanged; when it has hits, the
committed `bestPrice` is the `newLowest` hit, which attains the minimum
price among this run's hits and is the first-encountered hit with that
price in iteration order. -/
theorem bestPrice_min_of_hits (st : GPState) (o : FetchOracle) (now : Int)
    (requestId dateKey : String) (lock' : Option LockDoc)
    (hq : tryAcquireLock st.masterExists st.lock now requestId = (.acquired, lock'))
    (hm : st.masterExists = true) :
    (allHits st o = [] →
      (processVendorPrices st o now requestId dateKey).2.1.bestPrice = st.bestPrice) ∧
    (∀ b, selectLowest (allHits st o) = some b →
      (processVendorPrices st o now requestId dateKey).2.1.bestPrice
          = some ⟨b.brand, b.price, now⟩ ∧
      ∃ l1 l2, allHits st o = l1 ++ b :: l2 ∧ (∀ x ∈ l1, b.price < x.price) ∧
        (∀ x ∈ l2, b.price ≤ x.price)) := by
  rw [processVendorPrices_acquired hq hm]
  have hsc := (mergeTxn_scalar { st with lock := lock' } (allHits st o) (missingHits st o)
    (relevantBrands st o) now dateKey).2.2
  constructor
  · intro hnil
    show (mergeTxn { st with lock := lock' } (allHits st o) (missingHits st o)
      (relevantBrands st o) now dateKey).bestPrice = st.bestPrice
    rw [hsc, hnil]
    rfl
  · intro b hb
    refine ⟨?_, selectLowest_firstMin hb⟩
    show (mergeTxn { st with lock := lock' } (allHits st o) (missingHits st o)
      (relevantBrands st o) now dateKey).bestPrice = some ⟨b.brand, b.price, now⟩
    rw [hsc, hb]

/-- Witness for C5: three active vendors A, B, C whose refreshed prices
are 10, 7 and 9 — the committed bestPrice is B at 7. -/
theorem bestPrice_min_of_hits_witness :
    (processVendorPrices
      ⟨true, [], some ⟨"old", 99, 0⟩, none,
       [("A", ⟨true, some 0, none, some "u", none⟩),
        ("B", ⟨true, some 0, none, some "u", none⟩),
        ("C", ⟨true, some 0, none, some "u", none⟩)], [], none⟩
      ⟨fun b => if b = "A" then some ⟨some 10, some "u", none⟩
        else if b = "B" then some ⟨some 7, some "u", none⟩
        else if b = "C" then some ⟨some 9, some "u", none⟩ else none,
       fun _ _ => none⟩
      100 "r" "d").2.1.bestPrice = some ⟨"B", 7, 100⟩ := by
  have h := (bestPrice_min_of_hits
    ⟨true, [], some ⟨"old", 99, 0⟩, none,
     [("A", ⟨true, some 0, none, some "u", none⟩),
      ("B", ⟨true, some 0, none, some "u", none⟩),
      ("C", ⟨true, some 0, none, some "u", none⟩)], [], none⟩
    ⟨fun b => if b = "A" then some ⟨some 10, some "u", none⟩
      else if b = "B" then some ⟨some 7, some "u", none⟩
      else if b = "C" then some ⟨some 9, some "u", none⟩ else none,
     fun _ _ => none⟩
    100 "r" "d" (some ⟨"r", some 100, 0⟩) (by decide) (by decide)).2
    ⟨"B", 7, some "u", none⟩ (by decide)
  exact h.1

/-- C8: for an existing active VendorLink with no hit this run, the
committed merge deactivates it if and only if its last fetch time is older
than the fixed 7-day cutoff; a vendor with a hit is never deactivated (its
link is written back active). -/
theorem stale_link_deactivation (st : GPState) (o : FetchOracle) (now : Int)
    (requestId dateKey : String) (lock' : Option LockDoc)
    (hq : tryAcquireLock st.masterExists st.lock now requestId = (.acquired, lock'))
    (hm : st.masterExists = true)
    (hnd : (st.vendorBrands.map Prod.fst).Nodup)
    (b : String) (d : VBDoc)
    (hdoc : getDoc b st.vendorBrands = some d) (hact : d.active = true) :
    (∀ t, allHitsMapGet (allHits st o) b = none → d.lastFetchDate = some t →
      ((getDoc b (processVendorPrices st o now requestId dateKey).2.1.vendorBrands).map
          VBDoc.active = some false ↔ t < cutoffDate now)) ∧
    (∀ h, allHitsMapGet (allHits st o) b = some h →
      (getDoc b (processVendorPrices st o now requestId dateKey).2.1.vendorBrands).map
          VBDoc.active = some true) := by
  rw [processVendorPrices_acquired hq hm]
  have hbrel : b ∈ relevantBrands st o :=
    mem_relevantBrands.mpr (Or.inl (mem_existingBrands_of_active hdoc hact))
  constructor
  · intro t hnone hlf
    have hnm : ∀ h' ∈ missingHits st o, Hit.brand h' ≠ b := by
      intro h' hh' he
      have hsome := allHitsMapGet_of_missing hnd hh'
      rw [he, hnone] at hsome
      cases hsome
    have hgoal := runLoops_vb_not_missing { st with lock := lock' } (allHits st o) now dateKey
      hnm (relevantBrands_nodup st o) hbrel
    have hw : loop1Write { st with lock := lock' } (allHits st o) now b
        = (if t < cutoffDate now then some { d with active := false } else none) := by
      unfold loop1Write
      rw [show getDoc b ({ st with lock := lock' } : GPState).vendorBrands = some d from hdoc]
      rw [hnone]
      simp [hact, hlf]
    show (getDoc b (runLoops { st with lock := lock' } (allHits st o) (missingHits st o)
      (relevantBrands st o) now dateKey).vendorBrands).map VBDoc.active = some false
        ↔ t < cutoffDate now
    rw [hgoal, hw]
    by_cases ht : t < cutoffDate now
    · rw [if_pos ht]
      simp [ht]
    · rw [if_neg ht]
      show (getDoc b st.vendorBrands).map VBDoc.active = some false ↔ t < cutoffDate now
      rw [hdoc]
      simp [hact, ht]
  · intro h hsome
    by_cases hbm : b ∈ (missingHits st o).map Hit.brand
    · obtain ⟨h', hh', hbe⟩ := List.mem_map.mp hbm
      have hmm := runLoops_vb_missing { st with lock := lock' } (allHits st o) now dateKey
        (relevantBrands st o) (missingHits_brands_nodup st o) hh'
      show (getDoc b (runLoops { st with lock := lock' } (allHits st o) (missingHits st o)
        (relevantBrands st o) now dateKey).vendorBrands).map VBDoc.active = some true
      rw [← hbe, hmm]
      rfl
    · have hnm : ∀ h' ∈ missingHits st o, Hit.brand h' ≠ b := fun h' hh' he =>
        hbm (by rw [← he]; exact List.mem_map.mpr ⟨h', hh', rfl⟩)
      have hgoal := runLoops_vb_not_missing { st with lock := lock' } (allHits st o) now dateKey
        hnm (relevantBrands_nodup st o) hbrel
      have hw : loop1Write { st with lock := lock' } (allHits st o) now b
          = some { d with lastFetchDate := some now, lastPrice := some h.price,
                          url := h.url, active := true } := by
        unfold loop1Write
        rw [show getDoc b ({ st with lock := lock' } : GPState).vendorBrands = some d from hdoc]
        rw [hsome]
      show (getDoc b (runLoops { st with lock := lock' } (allHits st o) (missingHits st o)
        (relevantBrands st o) now dateKey).vendorBrands).map VBDoc.active = some true
      rw [hgoal, hw]
      rfl

/-- Witness for C8: with no hits, a VendorLink last fetched 8 days ago is
deactivated by the merge, while one last fetched 3 days ago stays active
(now = day 9, in milliseconds). -/
theorem stale_link_deactivation_witness :
    ((getDoc "X" (processVendorPrices
        ⟨true, [], none, none,
         [("X", ⟨true, some 86400000, none, none, none⟩),
          ("Y", ⟨true, some 518400000, none, none, none⟩)], [], none⟩
        ⟨fun _ => none, fun _ _ => none⟩ 777600000 "r" "d").2.1.vendorBrands).map
        VBDoc.active = some false) ∧
    ¬ ((getDoc "Y" (processVendorPrices
        ⟨true, [], none, none,
         [("X", ⟨true, some 86400000, none, none, none⟩),
          ("Y", ⟨true, some 518400000, none, none, none⟩)], [], none⟩
        ⟨fun _ => none, fun _ _ => none⟩ 777600000 "r" "d").2.1.vendorBrands).map
        VBDoc.active = some false) := by
  constructor
  · exact ((stale_link_deactivation
      ⟨true, [], none, none,
       [("X", ⟨true, some 86400000, none, none, none⟩),
        ("Y", ⟨true, some 518400000, none, none, none⟩)], [], none⟩
      ⟨fun _ => none, fun _ _ => none⟩ 777600000 "r" "d"
      (some ⟨"r", some 777600000, 0⟩) (by decide) (by decide) (by decide)
      "X" ⟨true, some 86400000, none, none, none⟩ (by decide) (by decide)).1
      86400000 (by decide) (by decide)).mpr (by decide)
  · intro hcon
    have ht := ((stale_link_deactivation
      ⟨true, [], none, none,
       [("X", ⟨true, some 86400000, none, none, none⟩),
        ("Y", ⟨true, some 518400000, none, none, none⟩)], [], none⟩
      ⟨fun _ => none, fun _ _ => none⟩ 777600000 "r" "d"
      (some ⟨"r", some 777600000, 0⟩) (by decide) (by decide) (by decide)
      "Y" ⟨true, some 518400000, none, none, none⟩ (by decide) (by decide)).1
      518400000 (by decide) (by decide)).mp hcon
    exact absurd ht (by decide)

/-- C1, counterexample: PriceObservations are not write-once.  A
PriceObservation for (super99, dateKey "d") with price 5 exists before the
run; the merge's unconditional `transaction.set` overwrites it with this
run's price 7 and fetch time, changing the existing document's fields. -/
theorem priceObservation_not_write_once :
    getDoc "super99_d"
      ((processVendorPrices
        ⟨true, [], none, none, [("super99", ⟨true, some 0, some 5, some "u", none⟩)],
         [("super99_d", ⟨5, 0⟩)], none⟩
        ⟨fun _ => some ⟨some 7, some "u", none⟩, fun _ _ => none⟩
        100 "r" "d").2.1.vendorPrices) = some ⟨7, 100⟩ ∧
    (⟨7, 100⟩ : VPDoc) ≠ ⟨5, 0⟩ := by
  decide

/-- C1, amended: for every hit vendor the committed merge writes the
PriceObservation for (vendor, dateKey) unconditionally — its deterministic
document id means there is at most one document per (vendor, period), but
after the merge that document always holds this run's price and fetch
time, overwriting any pre-existing observation for the same period. -/
theorem priceObservation_overwritten_per_hit (st : GPState) (o : FetchOracle) (now : Int)
    (requestId dateKey : String) (lock' : Option LockDoc)
    (hq : tryAcquireLock st.masterExists st.lock now requestId = (.acquired, lock'))
    (hm : st.masterExists = true)
    (hnd : (st.vendorBrands.map Prod.fst).Nodup) :
    ∀ h ∈ allHits st o,
      getDoc (vpDocId h.brand dateKey)
        (processVendorPrices st o now requestId dateKey).2.1.vendorPrices
      = some ⟨h.price, now⟩ := by
  intro h hh
  rw [processVendorPrices_acquired hq hm]
  show getDoc (vpDocId h.brand dateKey) (runLoops { st with lock := lock' } (allHits st o)
    (missingHits st o) (relevantBrands st o) now dateKey).vendorPrices = some ⟨h.price, now⟩
  rcases List.mem_append.mp hh with hex | hms
  · have hbrel : h.brand ∈ relevantBrands st o :=
      mem_relevantBrands.mpr (Or.inl (mem_existingBrands_of_mem_existingHits hex))
    have hnm : ∀ h' ∈ missingHits st o, Hit.brand h' ≠ h.brand := by
      intro h' hh' he
      have h1 : h'.brand ∈ brandsToSearch st o :=
        (missingHits_brands_sublist st o).subset (List.mem_map.mpr ⟨h', hh', rfl⟩)
      have h2 := brandsToSearch_not_existing h1
      rw [he] at h2
      exact h2 (List.mem_map.mpr ⟨h, hex, rfl⟩)
    rw [runLoops_vp_not_missing { st with lock := lock' } (allHits st o) now dateKey hnm
      (relevantBrands_nodup st o) hbrel]
    obtain ⟨d, hdoc, hact⟩ := doc_of_mem_existingHits hnd hex
    have hsome := allHitsMapGet_of_existing hnd hex
    have hvp : loop1VP { st with lock := lock' } (allHits st o) h.brand = some h.price := by
      unfold loop1VP
      rw [show getDoc h.brand ({ st with lock := lock' } : GPState).vendorBrands = some d
        from hdoc]
      rw [hsome]
    rw [hvp]
  · exact runLoops_vp_missing { st with lock := lock' } (allHits st o) now dateKey
      (relevantBrands st o) (missingHits_brands_nodup st o) hms

/-- Witness for C1's amended theorem: the overwrite scenario of the
counterexample, derived by applying the theorem to its hit. -/
theorem priceObservation_overwritten_per_hit_witness :
    getDoc (vpDocId "super99" "d")
      ((processVendorPrices
        ⟨true, [], none, none, [("super99", ⟨true, some 0, some 5, some "u", none⟩)],
         [("super99_d", ⟨5, 0⟩)], none⟩
        ⟨fun _ => some ⟨some 7, some "u", none⟩, fun _ _ => none⟩
        100 "r" "d").2.1.vendorPrices) = some ⟨7, 100⟩ := by
  exact priceObservation_overwritten_per_hit
    ⟨true, [], none, none, [("super99", ⟨true, some 0, some 5, some "u", none⟩)],
     [("super99_d", ⟨5, 0⟩)], none⟩
    ⟨fun _ => some ⟨some 7, some "u", none⟩, fun _ _ => none⟩
    100 "r" "d" (some ⟨"r", some 100, 0⟩) (by decide) (by decide) (by decide)
    ⟨"super99", 7, some "u", none⟩ (by decide)

/-- C6, counterexample: the positive-price-plus-URL condition does not
govern every hit — the existing-link path checks only `price && price !==
0`, so an enhancement result with price 3 and no URL still contributes a
Phase-1 hit (with `url = none`). -/
theorem hit_without_url_accepted :
    allHits
      ⟨true, [], none, none, [("super99", ⟨true, some 0, none, some "u", none⟩)], [], none⟩
      ⟨fun _ => some ⟨some 3, none, none⟩, fun _ _ => none⟩
    = [⟨"super99", 3, none, none⟩] ∧
    (⟨"super99", 3, none, none⟩ : Hit).url = none := by
  decide

/-- C6, amended: a vendor with an active link contributes a hit exactly
when its enhancement has a present non-zero price — the URL is not
examined; a vendor with no active link contributes a hit per variant
exactly when the price is present and non-zero AND the URL is truthy; for
such a vendor the first identifier variant (in attempt order) satisfying
the condition wins; errors/null results and zero prices contribute no
hit. -/
theorem hit_condition_characterization :
    (∀ (b : String) (e : Enhanced) (p : Int), e.price = some p → p ≠ 0 →
      existingHitCheck b (some e) = some ⟨b, p, e.url, e.skuCode⟩) ∧
    (∀ (b : String) (e : Enhanced), (e.price = none ∨ e.price = some 0) →
      existingHitCheck b (some e) = none) ∧
    (∀ b : String, existingHitCheck b none = none ∧ variantHitCheck b none = none) ∧
    (∀ (b : String) (e : Enhanced) (p : Int), e.price = some p →
      variantHitCheck b (some e)
        = if p ≠ 0 ∧ urlTruthy e.url then some ⟨b, p, e.url, e.skuCode⟩ else none) ∧
    (∀ (o : FetchOracle) (b : String) (l1 : List String) (c : String) (l2 : List String)
        (h : Hit),
      (∀ c' ∈ l1, variantHitCheck b (o.fetchVariant b c') = none) →
      variantHitCheck b (o.fetchVariant b c) = some h →
      firstVariantHit o b (l1 ++ c :: l2) = some h) := by
  refine ⟨?_, ?_, ?_, ?_, ?_⟩
  · intro b e p hp hz
    simp only [existingHitCheck, hp]
    rw [if_pos hz]
  · intro b e hp
    rcases hp with hp | hp <;> simp [existingHitCheck, hp]
  · intro b
    exact ⟨rfl, rfl⟩
  · intro b e p hp
    simp only [variantHitCheck, hp]
  · intro o b l1 c l2 h hnone hc
    unfold firstVariantHit
    induction l1 with
    | nil =>
      rw [List.nil_append, List.findSome?_cons, hc]
    | cons a t ih =>
      rw [List.cons_append, List.findSome?_cons, hnone a (List.mem_cons_self a t)]
      exact ih (fun c' hc' => hnone c' (List.mem_cons_of_mem a hc'))

/-- Witness for C6's amended theorem: an existing-link hit accepted
without any URL, and a no-link vendor whose second variant is the first
satisfying one. -/
theorem hit_condition_characterization_witness :
    existingHitCheck "b" (some ⟨some 4, none, none⟩) = some ⟨"b", 4, none, none⟩ ∧
    firstVariantHit
      ⟨fun _ => none,
       fun _ c => if c = "c2" then some ⟨some 5, some "u", none⟩ else none⟩
      "b" ["c1", "c2"] = some ⟨"b", 5, some "u", none⟩ := by
  constructor
  · exact hit_condition_characterization.1 "b" ⟨some 4, none, none⟩ 4 rfl (by decide)
  · exact hit_condition_characterization.2.2.2.2
      ⟨fun _ => none,
       fun _ c => if c = "c2" then some ⟨some 5, some "u", none⟩ else none⟩
      "b" ["c1"] "c2" [] ⟨"b", 5, some "u", none⟩ (by decide) (by decide)

/-- C3: immediately after a committed merge of `processVendorPrices`, the
stored `activeVendorBrands` of the aggregate record equals the number of
its VendorLink documents whose `active` flag is true. -/
theorem activeVendorBrands_eq_active_count (st : GPState) (o : FetchOracle) (now : Int)
    (requestId dateKey : String) (lock' : Option LockDoc)
    (hq : tryAcquireLock st.masterExists st.lock now requestId = (.acquired, lock'))
    (hm : st.masterExists = true)
    (hnd : (st.vendorBrands.map Prod.fst).Nodup) :
    (processVendorPrices st o now requestId dateKey).2.1.activeVendorBrands
      = some (((processVendorPrices st o now requestId dateKey).2.1.vendorBrands.filter
          (fun p => p.2.active)).length) := by
  rw [processVendorPrices_acquired hq hm]
  show (mergeTxn { st with lock := lock' } (allHits st o) (missingHits st o)
      (relevantBrands st o) now dateKey).activeVendorBrands
    = some (((runLoops { st with lock := lock' } (allHits st o) (missingHits st o)
        (relevantBrands st o) now dateKey).vendorBrands.filter (fun p => p.2.active)).length)
  rw [(mergeTxn_scalar { st with lock := lock' } (allHits st o) (missingHits st o)
    (relevantBrands st o) now dateKey).2.1]
  congr 1
  have hkeysnd : (((runLoops { st with lock := lock' } (allHits st o) (missingHits st o)
      (relevantBrands st o) now dateKey).vendorBrands.map Prod.fst)).Nodup :=
    nodup_keys_runLoops _ _ _ _ _ _ hnd
  have e1 : finalActiveCount { st with lock := lock' } (allHits st o)
      (relevantBrands st o) now
      = (relevantBrands st o).countP (fun b =>
          countPredicate (getDoc b st.vendorBrands) (allHitsMapGet (allHits st o) b) now) := by
    unfold finalActiveCount
    rw [List.countP_eq_length_filter]
  have e2 : (relevantBrands st o).countP (fun b =>
        countPredicate (getDoc b st.vendorBrands) (allHitsMapGet (allHits st o) b) now)
      = (relevantBrands st o).countP (fun b =>
          ((getDoc b (runLoops { st with lock := lock' } (allHits st o) (missingHits st o)
            (relevantBrands st o) now dateKey).vendorBrands).map VBDoc.active).getD false) := by
    apply List.countP_congr
    intro b hb
    rw [runLoops_active_char st o now dateKey lock' hnd b hb]
  have e3 : ((runLoops { st with lock := lock' } (allHits st o) (missingHits st o)
        (relevantBrands st o) now dateKey).vendorBrands.map Prod.fst).countP (fun b =>
          ((getDoc b (runLoops { st with lock := lock' } (allHits st o) (missingHits st o)
            (relevantBrands st o) now dateKey).vendorBrands).map VBDoc.active).getD false)
      = (relevantBrands st o).countP (fun b =>
          ((getDoc b (runLoops { st with lock := lock' } (allHits st o) (missingHits st o)
            (relevantBrands st o) now dateKey).vendorBrands).map VBDoc.active).getD false) := by
    apply countP_eq_of_subset (relevantBrands_nodup st o) hkeysnd
      (relevant_subset_keys st o now dateKey lock' hnd)
    intro b hbmem hptrue
    by_contra hnb
    rw [runLoops_active_frame_false st o now dateKey lock' hnd hnb] at hptrue
    cases hptrue
  have e4 := filter_active_length hkeysnd
  rw [e1, e2, ← e3, ← e4]

/-- Witness for C3: a concrete committed merge (one fresh active vendor
with a hit, one stale vendor that gets deactivated, one new vendor found
by variant search) after which the stored count matches the active
VendorLinks. -/
theorem activeVendorBrands_eq_active_count_witness :
    (processVendorPrices
      ⟨true, ["e1"], none, none,
       [("X", ⟨true, some 700000000, none, some "u", none⟩),
        ("Y", ⟨true, some 86400000, none, some "u", none⟩)], [], none⟩
      ⟨fun b => if b = "X" then some ⟨some 4, some "u", none⟩ else none,
       fun b _ => if b = "super99" then some ⟨some 6, some "w", none⟩ else none⟩
      777600000 "r" "d").2.1.activeVendorBrands
    = some ((((processVendorPrices
      ⟨true, ["e1"], none, none,
       [("X", ⟨true, some 700000000, none, some "u", none⟩),
        ("Y", ⟨true, some 86400000, none, some "u", none⟩)], [], none⟩
      ⟨fun b => if b = "X" then some ⟨some 4, some "u", none⟩ else none,
       fun b _ => if b = "super99" then some ⟨some 6, some "w", none⟩ else none⟩
      777600000 "r" "d").2.1.vendorBrands).filter (fun p => p.2.active)).length) := by
  exact activeVendorBrands_eq_active_count
    ⟨true, ["e1"], none, none,
     [("X", ⟨true, some 700000000, none, some "u", none⟩),
      ("Y", ⟨true, some 86400000, none, some "u", none⟩)], [], none⟩
    ⟨fun b => if b = "X" then some ⟨some 4, some "u", none⟩ else none,
     fun b _ => if b = "super99" then some ⟨some 6, some "w", none⟩ else none⟩
    777600000 "r" "d" (some ⟨"r", some 777600000, 0⟩) (by decide) (by decide) (by decide)

end ProductManagement
